import Mathlib

/-!
Verification of the static-timing budgeting and analysis engine of
src/common/timing.cc (struct Timing, walk_paths, assign_budget,
timing_analysis).  The embedding below follows the compiled code path:
the iterative formulation guarded by the #else at line 148 of the source.
delay_t is modelled as Int (the source arch typedefs it to a 32-bit int);
C++ integer division truncates toward zero, which is Int.tdiv.
The unordered maps (ctx->cells, cell->ports, net_data, port_fanin) are
modelled as association lists / functions; iteration order is list order.
-/

namespace NextPNR

/-- Direction of a cell port: PORT_IN or PORT_OUT in the source. -/
inductive PortType where
  | pIn : PortType
  | pOut : PortType
deriving DecidableEq

/-- PortInfo: one port of a cell. The name is an interned id, the net field
is the id of the bound net when there is one. -/
structure PortInfo where
  name : Nat
  type : PortType
  net : Option Nat
deriving DecidableEq

/-- CellInfo: a placed cell, identified in Ctx.cells by its id; type is the
cell type id (compared against id_sb_io to recognise IO pseudo-cells). -/
structure CellInfo where
  type : Nat
  ports : List PortInfo
deriving DecidableEq

/-- PortRef: a (cell, port) pair; sink usages of a net are PortRefs.
The mutable budget field of the source PortRef is kept outside, in a
Budgets map keyed by (net id, index in the users list). -/
structure PortRef where
  cell : Nat
  port : Nat
deriving DecidableEq

/-- NetInfo: driver port and the ordered list of sink usages. -/
structure NetInfo where
  driver : PortRef
  users : List PortRef
deriving DecidableEq

/-- The transient per-net working record of struct Timing (TimingData at
line 43 of the source): default-constructed fields are zero. -/
structure TimingData where
  max_arrival : Int := 0
  max_path_length : Nat := 0
  min_remaining_budget : Int := 0
deriving DecidableEq

/-- The Context interface consumed by the pass: the netlist storage plus
the delay-model callbacks.  clk_period is delay_t(1.0e12 / target_freq),
computed identically at Timing construction (line 53) and in walk_paths
(line 127).  quantize models int(getDelayNS(d) * 1000), the picosecond
quantisation applied to histogram keys at lines 100 and 268. -/
structure Ctx where
  cells : List (Nat × CellInfo)
  nets : List (Nat × NetInfo)
  id_sb_io : Nat
  clk_period : Int
  slack_redist_iter : Nat
  auto_freq : Bool
  portClock : Nat → Nat → Option Nat
  cellDelay : Nat → Nat → Nat → Option Int
  routeDelay : Nat → PortRef → Int
  budgetOverride : Nat → PortRef → Option Int
  quantize : Int → Int

/-- Budget store: (net id, index into the users list) to delay_t. -/
abbrev Budgets := Nat × Nat → Int

/-- net_data: the per-net working records (an unordered_map in the source). -/
abbrev NetData := Nat → Option TimingData

/-- port_fanin: in-degree per output port, keyed by (cell id, port name),
mirroring the PortInfo-pointer key of the source map. -/
abbrev Fanin := Nat × Nat → Option Nat

def findCell (ctx : Ctx) (c : Nat) : Option CellInfo :=
  (ctx.cells.find? (fun p => p.1 == c)).map (fun p => p.2)

def portsOf (ctx : Ctx) (c : Nat) : List PortInfo :=
  match findCell ctx c with
  | some ci => ci.ports
  | none => []

def findNet (ctx : Ctx) (n : Nat) : Option NetInfo :=
  (ctx.nets.find? (fun p => p.1 == n)).map (fun p => p.2)

def usersOf (ctx : Ctx) (n : Nat) : List PortRef :=
  match findNet ctx n with
  | some ni => ni.users
  | none => []

def setND (nd : NetData) (n : Nat) (v : TimingData) : NetData :=
  fun m => if m = n then some v else nd m

/-- net_data.at(n): in every reachable use the entry exists; the default
record is never read on inputs produced by the pass itself. -/
def atND (nd : NetData) (n : Nat) : TimingData :=
  (nd n).getD {}

/-- unordered_map::emplace keeps the existing entry when the key is present. -/
def emplaceND (nd : NetData) (n : Nat) (v : TimingData) : NetData :=
  match nd n with
  | some _ => nd
  | none => setND nd n v

def bumpFanin (f : Fanin) (k : Nat × Nat) : Fanin :=
  fun k2 => if k2 = k then some ((f k).getD 0 + 1) else f k2

def setFanin (f : Fanin) (k : Nat × Nat) (v : Nat) : Fanin :=
  fun k2 => if k2 = k then some v else f k2

def eraseFanin (f : Fanin) (k : Nat × Nat) : Fanin :=
  fun k2 => if k2 = k then none else f k2

def setBudget (b : Budgets) (k : Nat × Nat) (v : Int) : Budgets :=
  fun k2 => if k2 = k then v else b k2

/-! ## Seeding (walk_paths lines 149-188): collect clocked and IO driven
nets as origins of the order and count combinational in-degrees. -/

structure SeedState where
  order : List Nat
  net_data : NetData
  fanin : Fanin

/-- Lines 167-187: handle one output port (with a bound net) of a cell.
A clocked output seeds its net with the clock-to-output arrival; an IO
output seeds its net with zero arrival; every other output accumulates
one unit of in-degree per input port with a combinational path to it. -/
def seedOutput (ctx : Ctx) (cid : Nat) (is_io : Bool) (input_ports : List Nat)
    (st : SeedState) (o : PortInfo) : SeedState :=
  match o.net with
  | none => st
  | some onet =>
    match ctx.portClock cid o.name with
    | some clock_domain =>
        let clkToQ := (ctx.cellDelay cid clock_domain o.name).getD 0
        { st with order := st.order ++ [onet],
                  net_data := emplaceND st.net_data onet { max_arrival := clkToQ } }
    | none =>
        let st1 :=
          if is_io then
            { st with order := st.order ++ [onet],
                      net_data := emplaceND st.net_data onet {} }
          else st
        input_ports.foldl (fun s i =>
          match ctx.cellDelay cid i o.name with
          | some _ => { s with fanin := bumpFanin s.fanin (cid, o.name) }
          | none => s) st1

/-- Lines 155-188: one cell of the seeding loop. Ports without a bound
net are skipped; the rest are split into input and output lists. -/
def seedCell (ctx : Ctx) (st : SeedState) (c : Nat × CellInfo) : SeedState :=
  let input_ports := (c.2.ports.filter
    (fun p => p.net.isSome && !(p.type == PortType.pOut))).map (fun p => p.name)
  let output_ports := c.2.ports.filter
    (fun p => p.net.isSome && (p.type == PortType.pOut))
  let is_io := c.2.type == ctx.id_sb_io
  output_ports.foldl (seedOutput ctx c.1 is_io input_ports) st

def seedPass (ctx : Ctx) : SeedState :=
  ctx.cells.foldl (seedCell ctx)
    { order := [], net_data := fun _ => none, fanin := fun _ => none }

/-! ## Kahn work-queue (walk_paths lines 190-217). The dead flag records
a failure of the NPNR_ASSERT at line 206 (fanin entry not found); the
source process aborts there, so the state is frozen once dead. -/

structure KState where
  order : List Nat
  queue : List Nat
  fanin : Fanin
  dead : Bool

/-- Lines 205-211: decrement the in-degree of output port (c, o) whose
net is m; on reaching zero, erase the entry and append m to both the
order and the queue. -/
def kahnDec (st : KState) (c o m : Nat) : KState :=
  if st.dead then st else
  match st.fanin (c, o) with
  | none => { st with dead := true }
  | some k =>
      if k == 1 then
        { st with fanin := eraseFanin st.fanin (c, o),
                  order := st.order ++ [m],
                  queue := st.queue ++ [m] }
      else { st with fanin := setFanin st.fanin (c, o) (k - 1) }

/-- Lines 200-213: one output port of the sink cell during the work-queue
walk: decrement when it has a bound net and a combinational path from the
sink input. -/
def kahnPort (ctx : Ctx) (usr : PortRef) (s : KState) (p : PortInfo) : KState :=
  match p.type, p.net with
  | PortType.pOut, some m =>
    match ctx.cellDelay usr.cell usr.port p.name with
    | some _ => kahnDec s usr.cell p.name m
    | none => s
  | _, _ => s

/-- Lines 196-215: one sink usage of the popped net. Clocked sinks are
skipped; otherwise every combinationally reachable output port (with a
bound net) of the sink cell is decremented. -/
def kahnUser (ctx : Ctx) (st : KState) (usr : PortRef) : KState :=
  if (ctx.portClock usr.cell usr.port).isSome then st
  else (portsOf ctx usr.cell).foldl (kahnPort ctx usr) st

/-- One iteration of the while loop at line 192: pop the front net and
process its users. -/
def kahnStep (ctx : Ctx) (st : KState) : KState :=
  match st.queue with
  | [] => st
  | n :: rest => (usersOf ctx n).foldl (kahnUser ctx) { st with queue := rest }

def kahnLoop (ctx : Ctx) : Nat → KState → KState
  | 0, st => st
  | Nat.succ fuel, st =>
      if st.dead then st
      else if st.queue.isEmpty then st
      else kahnLoop ctx fuel (kahnStep ctx st)

/-- Fuel that drains the queue: each iteration pops one element, and at
most one element per output port instance is ever appended beyond the
seeds, so seeds + total ports + 1 iterations always reach the empty
queue (the C++ loop needs no fuel; this bound makes the recursion
structural without changing the computed result). -/
def kahnFuel (ctx : Ctx) (s : SeedState) : Nat :=
  s.order.length + (ctx.cells.map (fun c => c.2.ports.length)).sum + 1

def linearized (ctx : Ctx) : KState :=
  let s := seedPass ctx
  kahnLoop ctx (kahnFuel ctx s)
    { order := s.order, queue := s.order, fanin := s.fanin, dead := false }

/-- The sequence of nets produced by the dependency linearizer
(topographical_order in the source). -/
def topographical_order (ctx : Ctx) : List Nat :=
  (linearized ctx).order

/-! ## Forward propagation (walk_paths lines 219-250). -/

/-- Lines 238-244: update the working record of the downstream net m of
one combinationally reached output port (operator[] default-inserts).
max_path_length is only raised when the connection has no override. -/
def fwdTarget (usr_arrival : Int) (net_length_plus_one : Nat) (ovr : Bool)
    (nd : NetData) (m : Nat) (cd : Int) : NetData :=
  let data := atND nd m
  let data1 := { data with max_arrival := max data.max_arrival (usr_arrival + cd) }
  let data2 :=
    if ovr then data1
    else { data1 with max_path_length := max data1.max_path_length net_length_plus_one }
  setND nd m data2

/-- Lines 232-247: one output port of the sink cell during the forward
pass. -/
def fwdPort (ctx : Ctx) (usr : PortRef) (usr_arrival : Int) (net_length_plus_one : Nat)
    (ovr : Bool) (s : NetData) (p : PortInfo) : NetData :=
  match p.type, p.net with
  | PortType.pOut, some m =>
    match ctx.cellDelay usr.cell usr.port p.name with
    | some cd => fwdTarget usr_arrival net_length_plus_one ovr s m cd
    | none => s
  | _, _ => s

/-- Lines 226-248: one sink usage in the forward pass. Note that the
route delay is fetched unconditionally at line 228: the net_delays flag
of struct Timing is not consulted by this compiled formulation. -/
def fwdUser (ctx : Ctx) (net : Nat) (net_arrival : Int) (net_length_plus_one : Nat)
    (nd : NetData) (usr : PortRef) : NetData :=
  if (ctx.portClock usr.cell usr.port).isSome then nd
  else
    let net_delay := (ctx.budgetOverride net usr).getD (ctx.routeDelay net usr)
    let ovr := (ctx.budgetOverride net usr).isSome
    let usr_arrival := net_arrival + net_delay
    (portsOf ctx usr.cell).foldl (fwdPort ctx usr usr_arrival net_length_plus_one ovr) nd

/-- Lines 220-250: one net of the forward loop. Arrival and path length
are read first, then min_remaining_budget is initialised to the clock
period (line 224), then the users are followed. -/
def fwdNet (ctx : Ctx) (nd : NetData) (net : Nat) : NetData :=
  let td := atND nd net
  let net_arrival := td.max_arrival
  let net_length_plus_one := td.max_path_length + 1
  let nd1 := setND nd net { td with min_remaining_budget := ctx.clk_period }
  (usersOf ctx net).foldl (fwdUser ctx net net_arrival net_length_plus_one) nd1

def forwardPass (ctx : Ctx) (order : List Nat) (nd : NetData) : NetData :=
  order.foldl (fwdNet ctx) nd

/-! ## Backward distribution (walk_paths lines 252-288). -/

/-- Sorted-map increment: (*slack_histogram)[key]++ on a std::map. -/
def histBump (h : List (Int × Nat)) (k : Int) : List (Int × Nat) :=
  match h with
  | [] => [(k, 1)]
  | (k0, c0) :: rest =>
      if k < k0 then (k, 1) :: (k0, c0) :: rest
      else if k = k0 then (k0, c0 + 1) :: rest
      else (k0, c0) :: histBump rest k

structure BwdState where
  net_data : NetData
  budgets : Budgets
  min_slack : Int
  hist : List (Int × Nat)

/-- Lines 272-285: one output port of the sink cell for an intermediate
(non-clocked) sink in the backward pass: read the min_remaining_budget of
the downstream net, tighten the budget of connection (net, i), and
tighten the min_remaining_budget of the current net. -/
def bwdPort (ctx : Ctx) (usr : PortRef) (net : Nat) (i : Nat) (net_delay : Int)
    (ovr : Bool) (net_length_plus_one : Int) (s : BwdState) (p : PortInfo) : BwdState :=
  match p.type, p.net with
  | PortType.pOut, some m =>
    match ctx.cellDelay usr.cell usr.port p.name with
    | some _ =>
        let path_budget := (atND s.net_data m).min_remaining_budget
        let budget_share := if ovr then 0 else Int.tdiv path_budget net_length_plus_one
        let nd0 := atND s.net_data net
        let mrb := min nd0.min_remaining_budget (path_budget - budget_share)
        let nd1 := { nd0 with min_remaining_budget := mrb }
        { s with
          budgets := setBudget s.budgets (net, i)
            (min (s.budgets (net, i)) (net_delay + budget_share)),
          net_data := setND s.net_data net nd1 }
    | none => s
  | _, _ => s

/-- Lines 259-270: a clocked sink usage (path terminus) in the backward
pass: compute path_budget from the driving net arrival, tighten the
budget of connection (net, i), tighten the min_remaining_budget of the
very same net, accumulate min_slack and, when requested, the slack
histogram. -/
def bwdClocked (ctx : Ctx) (hist_on : Bool) (net : Nat) (i : Nat) (net_delay : Int)
    (ovr : Bool) (net_length_plus_one : Int) (st : BwdState) : BwdState :=
  let nd0 := atND st.net_data net
  let path_budget := ctx.clk_period - (nd0.max_arrival + net_delay)
  let budget_share := if ovr then 0 else Int.tdiv path_budget net_length_plus_one
  let mrb := min nd0.min_remaining_budget (path_budget - budget_share)
  let nd1 := { nd0 with min_remaining_budget := mrb }
  { net_data := setND st.net_data net nd1,
    budgets := setBudget st.budgets (net, i)
      (min (st.budgets (net, i)) (net_delay + budget_share)),
    min_slack := min st.min_slack path_budget,
    hist := if hist_on then histBump st.hist (ctx.quantize path_budget) else st.hist }

/-- Lines 256-287: one sink usage in the backward pass, identified by its
index in the users list. The override, when present, replaces the route
delay (lines 257-258); the update of usr.budget at lines 263 and 281 is
unconditional: the update flag of struct Timing is not consulted. -/
def bwdUser (ctx : Ctx) (hist_on : Bool) (net : Nat) (net_length_plus_one : Int)
    (st : BwdState) (iu : Nat × PortRef) : BwdState :=
  let net_delay := (ctx.budgetOverride net iu.2).getD (ctx.routeDelay net iu.2)
  let ovr := (ctx.budgetOverride net iu.2).isSome
  if (ctx.portClock iu.2.cell iu.2.port).isSome then
    bwdClocked ctx hist_on net iu.1 net_delay ovr net_length_plus_one st
  else (portsOf ctx iu.2.cell).foldl
    (bwdPort ctx iu.2 net iu.1 net_delay ovr net_length_plus_one) st

/-- Lines 253-288: one net of the reverse loop; net_length_plus_one is a
delay_t read once per net (line 254). -/
def bwdNet (ctx : Ctx) (hist_on : Bool) (st : BwdState) (net : Nat) : BwdState :=
  let net_length_plus_one : Int := ((atND st.net_data net).max_path_length : Int) + 1
  ((usersOf ctx net).enum).foldl (bwdUser ctx hist_on net net_length_plus_one) st

def backwardPass (ctx : Ctx) (hist_on : Bool) (order : List Nat) (st : BwdState) : BwdState :=
  order.reverse.foldl (bwdNet ctx hist_on) st

/-! ## walk_paths and the two entry points. -/

structure WPResult where
  order : List Nat
  net_data : NetData
  budgets : Budgets
  min_slack : Int
  hist : List (Int × Nat)
  crit_path : List PortRef
  dead : Bool

/-- Timing::walk_paths (lines 125-291), compiled formulation. net_delays
and update mirror the constructor arguments of struct Timing; the loops
of this formulation read neither flag (route delays are fetched
unconditionally at lines 228 and 257, budgets are written
unconditionally at lines 263 and 281), and current_path / crit_path are
never touched, so the crit_path buffer passes through unchanged.
min_slack starts at the clock period (line 53). -/
def walk_paths (ctx : Ctx) (net_delays update hist_on : Bool)
    (crit_path : List PortRef) (hist0 : List (Int × Nat)) (b : Budgets) : WPResult :=
  let ks := linearized ctx
  let nd1 := forwardPass ctx ks.order (seedPass ctx).net_data
  let bs := backwardPass ctx hist_on ks.order
    { net_data := nd1, budgets := b, min_slack := ctx.clk_period, hist := hist0 }
  { order := ks.order, net_data := bs.net_data, budgets := bs.budgets,
    min_slack := bs.min_slack, hist := bs.hist, crit_path := crit_path,
    dead := ks.dead }

/-- std::numeric_limits of delay_t (32-bit int): the reset value of every
budget at line 298. -/
def MAXDELAY : Int := 2147483647

/-- Lines 296-299: reset the budget of every user of one net to MAXDELAY. -/
def resetNet (acc : Budgets) (en : Nat × NetInfo) : Budgets :=
  (en.2.users.enum).foldl (fun acc2 iu => setBudget acc2 (en.1, iu.1) MAXDELAY) acc

/-- Lines 295-300: reset every budget of every net user to MAXDELAY. -/
def resetBudgets (ctx : Ctx) (b : Budgets) : Budgets :=
  ctx.nets.foldl resetNet b

/-- Timing::assign_budget (lines 293-303). -/
def timing_assign_budget (ctx : Ctx) (net_delays update : Bool) (b : Budgets) : WPResult :=
  walk_paths ctx net_delays update false [] [] (resetBudgets ctx b)

structure ABResult where
  ctx : Ctx
  budgets : Budgets
  min_slack : Int

/-- Global assign_budget (lines 306-348): net_delays is slack_redist_iter
greater than zero, update is true; afterwards, when auto_freq holds and
routing has occurred, target_freq is retuned so that the next clock
period is the old period minus the achieved minimum slack (lines
337-344); the float round trip through target_freq is exact at these
magnitudes and is modelled as the integer subtraction. -/
def assign_budget (ctx : Ctx) (b : Budgets) : ABResult :=
  let r := timing_assign_budget ctx (decide (0 < ctx.slack_redist_iter)) true b
  let ctx2 :=
    if ctx.auto_freq ∧ 0 < ctx.slack_redist_iter then
      { ctx with clk_period := ctx.clk_period - r.min_slack }
    else ctx
  { ctx := ctx2, budgets := r.budgets, min_slack := r.min_slack }

/-- Global timing_analysis (lines 350-357): net_delays true, update
false, fresh empty critical-path buffer and histogram. -/
def timing_analysis (ctx : Ctx) (print_histogram print_path : Bool) (b : Budgets) : WPResult :=
  walk_paths ctx true false print_histogram [] [] b

/-! ## Histogram rendering (timing_analysis lines 399-419). -/

/-- num_bins at line 400. -/
def num_bins : Nat := 20

def histMinKey (h : List (Int × Nat)) : Int :=
  ((h.head?).map (fun p => p.1)).getD 0

def histMaxKey (h : List (Int × Nat)) : Int :=
  ((h.getLast?).map (fun p => p.1)).getD 0

/-- bin_size at line 404: (max_slack - min_slack) / num_bins in C++
integer arithmetic. -/
def histBinSize (h : List (Int × Nat)) : Int :=
  Int.tdiv (histMaxKey h - histMinKey h) 20

/-- The bin index (i.first - min_slack) / bin_size computed at line 408;
in C++ this divides by bin_size with no guard. -/
def histBinIndex (h : List (Int × Nat)) (k : Int) : Int :=
  Int.tdiv (k - histMinKey h) (histBinSize h)

/-- Safety of the rendering loop: the divisor at line 408 is nonzero and
every sample indexes inside the 21-entry bins vector allocated at line
405. In C++, violating either is division by zero or an out-of-bounds
write. -/
def histRenderSafe (h : List (Int × Nat)) : Prop :=
  histBinSize h ≠ 0 ∧
    ∀ p ∈ h, 0 ≤ histBinIndex h p.1 ∧ histBinIndex h p.1 < 21

/-- The accumulation loop at lines 407-411, with the out-of-range write
(undefined behaviour in C++) rendered as the no-op of List.set; the
counts are only meaningful on inputs satisfying histRenderSafe. -/
def histBins (h : List (Int × Nat)) : List Nat :=
  h.foldl (fun bins p =>
    let idx := (histBinIndex h p.1).toNat
    bins.set idx (bins.get! idx + p.2)) (List.replicate 21 0)

/-! ## Specification-side notions used to state the claims. -/

/-- Net b is produced combinationally from net a through one cell: a has a
non-clocked sink whose cell has an output bound to b with a reported
combinational path from that sink input. -/
def combDrives (ctx : Ctx) (a b : Nat) : Prop :=
  ∃ usr ∈ usersOf ctx a, (ctx.portClock usr.cell usr.port).isNone = true ∧
    ∃ p ∈ portsOf ctx usr.cell, p.type = PortType.pOut ∧ p.net = some b ∧
      (ctx.cellDelay usr.cell usr.port p.name).isSome = true

/-- The combinational successor nets of a net (the relation underlying
combDrives, as a computable list). -/
def combSucc (ctx : Ctx) (a : Nat) : List Nat :=
  (usersOf ctx a).foldr (fun usr acc =>
    if (ctx.portClock usr.cell usr.port).isSome then acc
    else ((portsOf ctx usr.cell).filterMap (fun p =>
      match p.type, p.net with
      | PortType.pOut, some m =>
        match ctx.cellDelay usr.cell usr.port p.name with
        | some _ => some m
        | none => none
      | _, _ => none)) ++ acc) []

/-- Reachability along combSucc in at most fuel+1 hops. -/
def combReachB (ctx : Ctx) : Nat → Nat → Nat → Bool
  | 0, a, b => (combSucc ctx a).contains b
  | Nat.succ fuel, a, b =>
      (combSucc ctx a).contains b ||
        (combSucc ctx a).any (fun c => combReachB ctx fuel c b)

/-- The netlist has no combinational dependency cycle: no net mentioned in
the net store combinationally reaches itself (the fuel covers every
simple path). -/
def Acyclic (ctx : Ctx) : Prop :=
  ∀ n ∈ ctx.nets.map Prod.fst, combReachB ctx (ctx.nets.length) n n = false

/-- a occurs before b in the list: every occurrence of b is preceded by an
occurrence of a. -/
def occursBefore (l : List Nat) (a b : Nat) : Prop :=
  ∀ j, j < l.length → l.getD j 0 = b → ∃ i, i < j ∧ l.getD i 0 = a

/-- Net b is seeded as an origin by the linearizer: some output port bound
to b is clocked, or belongs to an IO pseudo-cell. -/
def isSeedNet (ctx : Ctx) (b : Nat) : Prop :=
  ∃ en ∈ ctx.cells, ∃ p ∈ en.2.ports, p.type = PortType.pOut ∧ p.net = some b ∧
    ((ctx.portClock en.1 p.name).isSome = true ∨ en.2.type = ctx.id_sb_io)

/-- The realized delay of a connection: the pinned override when present,
else the route delay. -/
def realizedDelay (ctx : Ctx) (n : Nat) (usr : PortRef) : Int :=
  (ctx.budgetOverride n usr).getD (ctx.routeDelay n usr)

/-- The path budget of a path-terminating connection as the spec states
it: target period minus max_arrival of the driving net minus the realized
delay (read off the result record r). -/
def termPathBudget (ctx : Ctx) (r : WPResult) (n : Nat) (usr : PortRef) : Int :=
  ctx.clk_period - ((atND r.net_data n).max_arrival + realizedDelay ctx n usr)

/-- The proportional share a terminating connection receives: zero when
overridden, else path budget divided (C++ truncating division) by the
path length plus one of the driving net. -/
def termShare (ctx : Ctx) (r : WPResult) (n : Nat) (usr : PortRef) : Int :=
  if (ctx.budgetOverride n usr).isSome then 0
  else Int.tdiv (termPathBudget ctx r n usr) (((atND r.net_data n).max_path_length : Int) + 1)

/-- The slack of every path-terminating (clocked-sink) connection whose
driving net is reachable in the linear order, as the claims state it:
target period minus max_arrival of the driving net minus the realized
(override or route) delay of the connection. -/
def terminalSlacks (ctx : Ctx) (r : WPResult) : List Int :=
  r.order.bind (fun n => (usersOf ctx n).filterMap (fun usr =>
    if (ctx.portClock usr.cell usr.port).isSome then
      some (termPathBudget ctx r n usr)
    else none))

/-- The budget keys covered by the reset loop of Timing::assign_budget:
(net id, index of a sink usage of that net). -/
def InNets (ctx : Ctx) (k : Nat × Nat) : Prop :=
  ∃ en ∈ ctx.nets, ∃ iu ∈ en.2.users.enum, k = (en.1, iu.1)

/-! ## Well-formedness and proof-side notions for the linearizer (C8). -/

/-- The net bound to a port record (only read under a q.net.isSome guard). -/
def netOfD (q : PortInfo) : Nat := q.net.getD 0

/-- The input ports of cell record ci that the seeding loop counts toward
the in-degree of the output named o: bound, non-output, with a reported
combinational path to o (lines 180-185). -/
def countedInputs (ctx : Ctx) (cid : Nat) (ci : CellInfo) (o : Nat) : List PortInfo :=
  (ci.ports.filter (fun q => q.net.isSome && !(q.type == PortType.pOut))).filter
    (fun q => (ctx.cellDelay cid q.name o).isSome)

/-- Counted inputs not yet consumed by the work-queue walk given the list
of already-popped nets: an input is consumed once it is non-clocked and
its net has been popped. -/
def pendInputs (ctx : Ctx) (cid : Nat) (ci : CellInfo) (o : Nat) (rho : List Nat) :
    List PortInfo :=
  (countedInputs ctx cid ci o).filter (fun q =>
    !((ctx.portClock cid q.name).isNone && rho.contains (netOfD q)))

/-- The in-degree decrement events performed for one sink usage: one per
combinationally reached bound output port, none when the sink is clocked. -/
def userEvents (ctx : Ctx) (u : PortRef) : List (PortRef × PortInfo) :=
  if (ctx.portClock u.cell u.port).isSome then []
  else ((portsOf ctx u.cell).filter (fun p =>
    (p.type == PortType.pOut) && p.net.isSome
      && (ctx.cellDelay u.cell u.port p.name).isSome)).map (fun p => (u, p))

/-- The in-degree decrement events performed while popping net n: one per
(non-clocked sink, combinationally reached bound output port) pair, in
processing order. -/
def decEvents (ctx : Ctx) (n : Nat) : List (PortRef × PortInfo) :=
  (usersOf ctx n).flatMap (userEvents ctx)

/-- One decrement event applied to the work-queue state. -/
def decStep (s : KState) (ev : PortRef × PortInfo) : KState :=
  kahnDec s ev.1.cell ev.2.name (netOfD ev.2)

/-- Counted inputs not yet consumed in the middle of popping net n, where
rho lists the previously popped nets and edone the decrement events
already performed for n. -/
def pendE (ctx : Ctx) (cid : Nat) (ci : CellInfo) (o : Nat) (rho : List Nat)
    (edone : List (PortRef × PortInfo)) : List PortInfo :=
  (countedInputs ctx cid ci o).filter (fun q =>
    !((ctx.portClock cid q.name).isNone &&
      (rho.contains (netOfD q) ||
        edone.any (fun ev => ev.1.cell == cid && ev.1.port == q.name && ev.2.name == o))))

/-- The net contributed to the initial order by one output port of the
seeding loop (empty when the port is neither clocked nor on an IO cell). -/
def seedContrib (ctx : Ctx) (cid : Nat) (is_io : Bool) (o : PortInfo) : List Nat :=
  match o.net with
  | none => []
  | some onet =>
    match ctx.portClock cid o.name with
    | some _ => [onet]
    | none => if is_io then [onet] else []

/-- The nets seeded into the order by one cell of the seeding loop, in
traversal order (lines 167-179). -/
def seedNetsOfCell (ctx : Ctx) (en : Nat × CellInfo) : List Nat :=
  (en.2.ports.filter (fun p => p.net.isSome && (p.type == PortType.pOut))).flatMap
    (seedContrib ctx en.1 (en.2.type == ctx.id_sb_io))

/-- Well-formedness of the netlist: unique cell ids, unique port names per
cell, users lists consistent with port bindings in both directions, no
duplicated user, a unique driver per net, and no combinational input path
into a seed-origin (clocked or IO) output. -/
def WFCtx (ctx : Ctx) : Prop :=
  (ctx.cells.map Prod.fst).Nodup
  ∧ (∀ en ∈ ctx.cells, (en.2.ports.map PortInfo.name).Nodup)
  ∧ (∀ en ∈ ctx.nets, ∀ usr ∈ en.2.users,
      ∃ q ∈ portsOf ctx usr.cell,
        q.name = usr.port ∧ q.type ≠ PortType.pOut ∧ q.net = some en.1)
  ∧ (ctx.nets.flatMap (fun en => en.2.users)).Nodup
  ∧ (∀ e1 ∈ ctx.cells, ∀ p1 ∈ e1.2.ports, ∀ e2 ∈ ctx.cells, ∀ p2 ∈ e2.2.ports,
      p1.type = PortType.pOut → p2.type = PortType.pOut →
      p1.net.isSome = true → p1.net = p2.net → e1.1 = e2.1 ∧ p1.name = p2.name)
  ∧ (∀ en ∈ ctx.cells, ∀ p ∈ en.2.ports, p.type = PortType.pOut → p.net.isSome = true →
      ((ctx.portClock en.1 p.name).isSome = true ∨ en.2.type = ctx.id_sb_io) →
      ∀ q ∈ en.2.ports, q.type ≠ PortType.pOut → q.net.isSome = true →
        ctx.cellDelay en.1 q.name p.name = none)
  ∧ (∀ en ∈ ctx.cells, ∀ q ∈ en.2.ports, q.type ≠ PortType.pOut →
      q.net.isSome = true → (⟨en.1, q.name⟩ : PortRef) ∈ usersOf ctx (netOfD q))

/-- The per-key part of the work-queue invariant: for every non-seed
output port instance, the in-degree entry tracks exactly the pending
counted inputs, and while any input is pending the driven net has not
been appended. -/
def KeyInv (ctx : Ctx) (f : Fanin) (order rho : List Nat) : Prop :=
  ∀ en ∈ ctx.cells, ∀ p ∈ en.2.ports, p.type = PortType.pOut →
    ∀ m, p.net = some m →
    (ctx.portClock en.1 p.name).isSome = false → en.2.type ≠ ctx.id_sb_io →
      ((pendInputs ctx en.1 en.2 p.name rho = [] → f (en.1, p.name) = none)
        ∧ (pendInputs ctx en.1 en.2 p.name rho ≠ [] →
            f (en.1, p.name) = some (pendInputs ctx en.1 en.2 p.name rho).length
              ∧ m ∉ order))

/-- Mid-pop version of KeyInv, indexed by the decrement events already
performed for the currently popped net n. -/
def KeyInvE (ctx : Ctx) (f : Fanin) (order rho : List Nat) (n : Nat)
    (edone : List (PortRef × PortInfo)) : Prop :=
  ∀ en ∈ ctx.cells, ∀ p ∈ en.2.ports, p.type = PortType.pOut →
    ∀ m, p.net = some m →
    (ctx.portClock en.1 p.name).isSome = false → en.2.type ≠ ctx.id_sb_io →
      ((pendE ctx en.1 en.2 p.name rho edone = [] → f (en.1, p.name) = none)
        ∧ (pendE ctx en.1 en.2 p.name rho edone ≠ [] →
            f (en.1, p.name) = some (pendE ctx en.1 en.2 p.name rho edone).length
              ∧ m ∉ order))

/-- The soundness part of the invariant: every non-seed net appended to
the order was released only after all its counted inputs were consumed,
each of which names a net appended strictly earlier. -/
def OrderInv (ctx : Ctx) (order : List Nat) : Prop :=
  ∀ j, j < order.length →
    ∀ en ∈ ctx.cells, ∀ p ∈ en.2.ports, p.type = PortType.pOut →
      p.net = some (order.getD j 0) →
      (ctx.portClock en.1 p.name).isSome = false → en.2.type ≠ ctx.id_sb_io →
      ∀ q ∈ countedInputs ctx en.1 en.2 p.name,
        (ctx.portClock en.1 q.name).isNone = true
          ∧ ∃ i, i < j ∧ order.getD i 0 = netOfD q

/-- The full work-queue invariant between loop iterations. -/
def KInv (ctx : Ctx) (st : KState) : Prop :=
  st.dead = false
  ∧ st.order.Nodup
  ∧ OrderInv ctx st.order
  ∧ ∃ rho, st.order = rho ++ st.queue ∧ KeyInv ctx st.fanin st.order rho

/-- The work-queue invariant in the middle of popping net n, after the
decrement events edone. -/
def KInvMid (ctx : Ctx) (rho : List Nat) (n : Nat) (edone : List (PortRef × PortInfo))
    (s : KState) : Prop :=
  s.dead = false
  ∧ s.order.Nodup
  ∧ OrderInv ctx s.order
  ∧ s.order = (rho ++ [n]) ++ s.queue
  ∧ KeyInvE ctx s.fanin s.order rho n edone

/-! ## Concrete netlists used as witnesses and counterexamples. -/

/-- Register (cell 0, output q = port 0, clock-to-Q 2) driving net 0 into
the clocked D input (port 3) of register cell 1; target period 10. -/
def ctxA : Ctx :=
  { cells := [(0, { type := 10, ports := [{ name := 0, type := PortType.pOut, net := some 0 }] }),
              (1, { type := 10, ports := [{ name := 3, type := PortType.pIn, net := some 0 }] })],
    nets := [(0, { driver := ⟨0, 0⟩, users := [⟨1, 3⟩] })],
    id_sb_io := 7,
    clk_period := 10,
    slack_redist_iter := 0,
    auto_freq := false,
    portClock := fun c p =>
      if c = 0 ∧ p = 0 then some 99 else if c = 1 ∧ p = 3 then some 99 else none,
    cellDelay := fun c i o => if c = 0 ∧ i = 99 ∧ o = 0 then some 2 else none,
    routeDelay := fun _ _ => 0,
    budgetOverride := fun _ _ => none,
    quantize := fun s => s }

/-- Two-hop design: register (cell 0) drives net 0 into buffer cell 1
(input port 1, combinational delay 2 to output port 2) driving net 1 into
the clocked input (port 3) of register cell 2. Net 0 has route delay r0;
clock-to-Q is 1; target period 10; no routing iteration has occurred
(slack_redist_iter = 0). -/
def ctxB (r0 : Int) : Ctx :=
  { cells := [(0, { type := 10, ports := [{ name := 0, type := PortType.pOut, net := some 0 }] }),
              (1, { type := 10, ports := [{ name := 1, type := PortType.pIn, net := some 0 },
                                          { name := 2, type := PortType.pOut, net := some 1 }] }),
              (2, { type := 10, ports := [{ name := 3, type := PortType.pIn, net := some 1 }] })],
    nets := [(0, { driver := ⟨0, 0⟩, users := [⟨1, 1⟩] }),
             (1, { driver := ⟨1, 2⟩, users := [⟨2, 3⟩] })],
    id_sb_io := 7,
    clk_period := 10,
    slack_redist_iter := 0,
    auto_freq := false,
    portClock := fun c p =>
      if c = 0 ∧ p = 0 then some 99 else if c = 2 ∧ p = 3 then some 99 else none,
    cellDelay := fun c i o =>
      if c = 0 ∧ i = 99 ∧ o = 0 then some 1
      else if c = 1 ∧ i = 1 ∧ o = 2 then some 2 else none,
    routeDelay := fun n _ => if n = 0 then r0 else 0,
    budgetOverride := fun _ _ => none,
    quantize := fun s => s }

/-- ctxA with a pinned budget override of 3 on the single connection. -/
def ctxOv : Ctx :=
  { ctxA with budgetOverride := fun n usr =>
      if n = 0 ∧ usr = (⟨1, 3⟩ : PortRef) then some 3 else none }

/-- ctxA with clock-to-Q 14 (worse than the period 10, so slack is
negative), adaptive frequency on, and a positive routing-iteration
counter, so assign_budget retunes the period upward. -/
def ctxAF : Ctx :=
  { ctxA with cellDelay := fun c i o => if c = 0 ∧ i = 99 ∧ o = 0 then some 14 else none,
              auto_freq := true, slack_redist_iter := 1 }

/-- A register pair on nets 0 plus a combinational two-inverter loop on
nets 1 and 2 (cells 2 and 3), which is a combinational dependency cycle:
nets 1 and 2 can never become ready. -/
def ctxCy : Ctx :=
  { cells := [(0, { type := 10, ports := [{ name := 0, type := PortType.pOut, net := some 0 }] }),
              (1, { type := 10, ports := [{ name := 3, type := PortType.pIn, net := some 0 }] }),
              (2, { type := 10, ports := [{ name := 4, type := PortType.pIn, net := some 2 },
                                          { name := 5, type := PortType.pOut, net := some 1 }] }),
              (3, { type := 10, ports := [{ name := 6, type := PortType.pIn, net := some 1 },
                                          { name := 7, type := PortType.pOut, net := some 2 }] })],
    nets := [(0, { driver := ⟨0, 0⟩, users := [⟨1, 3⟩] }),
             (1, { driver := ⟨2, 5⟩, users := [⟨3, 6⟩] }),
             (2, { driver := ⟨3, 7⟩, users := [⟨2, 4⟩] })],
    id_sb_io := 7,
    clk_period := 10,
    slack_redist_iter := 0,
    auto_freq := false,
    portClock := fun c p =>
      if c = 0 ∧ p = 0 then some 99 else if c = 1 ∧ p = 3 then some 99 else none,
    cellDelay := fun c i o =>
      if c = 0 ∧ i = 99 ∧ o = 0 then some 1
      else if c = 2 ∧ i = 4 ∧ o = 5 then some 1
      else if c = 3 ∧ i = 6 ∧ o = 7 then some 1 else none,
    routeDelay := fun _ _ => 0,
    budgetOverride := fun _ _ => none,
    quantize := fun s => s }

/-- An IO pseudo-cell (cell 5, type 77 = id_sb_io) whose output net 11 is
combinationally driven from net 10 through its own input port; the cell
list places the IO cell first, so net 11 is seeded into the order before
net 10 and then appended a second time when released. -/
def ctxC8 : Ctx :=
  { cells := [(5, { type := 77, ports := [{ name := 1, type := PortType.pIn, net := some 10 },
                                          { name := 2, type := PortType.pOut, net := some 11 }] }),
              (6, { type := 10, ports := [{ name := 0, type := PortType.pOut, net := some 10 }] })],
    nets := [(10, { driver := ⟨6, 0⟩, users := [⟨5, 1⟩] }),
             (11, { driver := ⟨5, 2⟩, users := [] })],
    id_sb_io := 77,
    clk_period := 10,
    slack_redist_iter := 0,
    auto_freq := false,
    portClock := fun c p => if c = 6 ∧ p = 0 then some 99 else none,
    cellDelay := fun c i o =>
      if c = 6 ∧ i = 99 ∧ o = 0 then some 0
      else if c = 5 ∧ i = 1 ∧ o = 2 then some 1 else none,
    routeDelay := fun _ _ => 0,
    budgetOverride := fun _ _ => none,
    quantize := fun s => s }

/-! # Theorems -/

/-! ## Fold helpers. -/

theorem foldl_pres {σ β : Type _} {α : Type _} (f : σ → α → σ) (g : σ → β)
    (l : List α) (s : σ) (h : ∀ s2 a, a ∈ l → g (f s2 a) = g s2) :
    g (l.foldl f s) = g s := by
  induction l generalizing s with
  | nil => rfl
  | cons a t ih =>
      rw [List.foldl_cons,
        ih (f s a) (fun s2 b hb => h s2 b (List.mem_cons_of_mem _ hb))]
      exact h s a (List.mem_cons_self _ _)

theorem foldl_inv {σ : Type _} {α : Type _} (f : σ → α → σ) (P : σ → Prop)
    (l : List α) (s : σ) (h : ∀ s2 a, a ∈ l → P s2 → P (f s2 a)) (h0 : P s) :
    P (l.foldl f s) := by
  induction l generalizing s with
  | nil => exact h0
  | cons a t ih =>
      exact ih (f s a) (fun s2 b hb => h s2 b (List.mem_cons_of_mem _ hb))
        (h s a (List.mem_cons_self _ _) h0)

theorem foldl_mono_le {σ : Type _} {α : Type _} (f : σ → α → σ) (g : σ → Int)
    (l : List α) (s : σ) (h : ∀ s2 a, a ∈ l → g (f s2 a) ≤ g s2) :
    g (l.foldl f s) ≤ g s := by
  induction l generalizing s with
  | nil => exact le_refl _
  | cons a t ih =>
      exact le_trans
        (ih (f s a) (fun s2 b hb => h s2 b (List.mem_cons_of_mem _ hb)))
        (h s a (List.mem_cons_self _ _))

theorem atND_set_self (nd : NetData) (n : Nat) (v : TimingData) :
    atND (setND nd n v) n = v := by
  simp [atND, setND]

theorem atND_set_ne (nd : NetData) (n : Nat) (v : TimingData) (m : Nat) (h : m ≠ n) :
    atND (setND nd n v) m = atND nd m := by
  simp [atND, setND, h]

theorem setBudget_ne (b : Budgets) (k : Nat × Nat) (v : Int) (k2 : Nat × Nat)
    (h : k2 ≠ k) : setBudget b k v k2 = b k2 := by
  simp [setBudget, h]

theorem findNet_mem (ctx : Ctx) (n : Nat) (ni : NetInfo) (h : findNet ctx n = some ni) :
    (n, ni) ∈ ctx.nets := by
  unfold findNet at h
  obtain ⟨en, he, hv⟩ := Option.map_eq_some'.1 h
  have h1 := List.find?_some he
  have h2 := List.mem_of_find?_eq_some he
  have h3 : en.1 = n := by
    have := of_decide_eq_true (by exact h1)
    exact this
  subst hv
  rw [← h3]
  exact h2

/-! ## Frame and monotonicity lemmas for the backward pass. -/

theorem bwdPort_budget_ne (ctx : Ctx) (usr : PortRef) (net i : Nat) (d : Int)
    (ovr : Bool) (L1 : Int) (s : BwdState) (p : PortInfo) (k : Nat × Nat)
    (hk : k ≠ (net, i)) :
    (bwdPort ctx usr net i d ovr L1 s p).budgets k = s.budgets k := by
  unfold bwdPort
  split
  · split
    · exact setBudget_ne _ _ _ _ hk
    · rfl
  · rfl

theorem bwdPort_arr (ctx : Ctx) (usr : PortRef) (net i : Nat) (d : Int)
    (ovr : Bool) (L1 : Int) (s : BwdState) (p : PortInfo) (m : Nat) :
    (atND (bwdPort ctx usr net i d ovr L1 s p).net_data m).max_arrival
      = (atND s.net_data m).max_arrival := by
  unfold bwdPort
  split
  · split
    · by_cases hm : m = net
      · subst hm; rw [atND_set_self]
      · rw [atND_set_ne _ _ _ _ hm]
    · rfl
  · rfl

theorem bwdPort_len (ctx : Ctx) (usr : PortRef) (net i : Nat) (d : Int)
    (ovr : Bool) (L1 : Int) (s : BwdState) (p : PortInfo) (m : Nat) :
    (atND (bwdPort ctx usr net i d ovr L1 s p).net_data m).max_path_length
      = (atND s.net_data m).max_path_length := by
  unfold bwdPort
  split
  · split
    · by_cases hm : m = net
      · subst hm; rw [atND_set_self]
      · rw [atND_set_ne _ _ _ _ hm]
    · rfl
  · rfl

theorem bwdPort_mrb_le (ctx : Ctx) (usr : PortRef) (net i : Nat) (d : Int)
    (ovr : Bool) (L1 : Int) (s : BwdState) (p : PortInfo) (m : Nat) :
    (atND (bwdPort ctx usr net i d ovr L1 s p).net_data m).min_remaining_budget
      ≤ (atND s.net_data m).min_remaining_budget := by
  unfold bwdPort
  split
  · split
    · by_cases hm : m = net
      · subst hm; rw [atND_set_self]; exact min_le_left _ _
      · rw [atND_set_ne _ _ _ _ hm]
    · exact le_refl _
  · exact le_refl _

theorem bwdPort_ms (ctx : Ctx) (usr : PortRef) (net i : Nat) (d : Int)
    (ovr : Bool) (L1 : Int) (s : BwdState) (p : PortInfo) :
    (bwdPort ctx usr net i d ovr L1 s p).min_slack = s.min_slack := by
  unfold bwdPort
  split
  · split
    · rfl
    · rfl
  · rfl

theorem bwdClocked_budget_ne (ctx : Ctx) (ho : Bool) (net i : Nat) (d : Int)
    (ovr : Bool) (L1 : Int) (st : BwdState) (k : Nat × Nat) (hk : k ≠ (net, i)) :
    (bwdClocked ctx ho net i d ovr L1 st).budgets k = st.budgets k := by
  simp only [bwdClocked]
  exact setBudget_ne _ _ _ _ hk

theorem bwdClocked_arr (ctx : Ctx) (ho : Bool) (net i : Nat) (d : Int)
    (ovr : Bool) (L1 : Int) (st : BwdState) (m : Nat) :
    (atND (bwdClocked ctx ho net i d ovr L1 st).net_data m).max_arrival
      = (atND st.net_data m).max_arrival := by
  simp only [bwdClocked]
  by_cases hm : m = net
  · subst hm; rw [atND_set_self]
  · rw [atND_set_ne _ _ _ _ hm]

theorem bwdClocked_len (ctx : Ctx) (ho : Bool) (net i : Nat) (d : Int)
    (ovr : Bool) (L1 : Int) (st : BwdState) (m : Nat) :
    (atND (bwdClocked ctx ho net i d ovr L1 st).net_data m).max_path_length
      = (atND st.net_data m).max_path_length := by
  simp only [bwdClocked]
  by_cases hm : m = net
  · subst hm; rw [atND_set_self]
  · rw [atND_set_ne _ _ _ _ hm]

theorem bwdClocked_mrb_le (ctx : Ctx) (ho : Bool) (net i : Nat) (d : Int)
    (ovr : Bool) (L1 : Int) (st : BwdState) (m : Nat) :
    (atND (bwdClocked ctx ho net i d ovr L1 st).net_data m).min_remaining_budget
      ≤ (atND st.net_data m).min_remaining_budget := by
  simp only [bwdClocked]
  by_cases hm : m = net
  · subst hm; rw [atND_set_self]; exact min_le_left _ _
  · rw [atND_set_ne _ _ _ _ hm]

theorem bwdClocked_ms_le (ctx : Ctx) (ho : Bool) (net i : Nat) (d : Int)
    (ovr : Bool) (L1 : Int) (st : BwdState) :
    (bwdClocked ctx ho net i d ovr L1 st).min_slack ≤ st.min_slack := by
  simp only [bwdClocked]
  exact min_le_left _ _

theorem bwdUser_budget_ne (ctx : Ctx) (ho : Bool) (net : Nat) (L1 : Int)
    (st : BwdState) (iu : Nat × PortRef) (k : Nat × Nat) (hk : k ≠ (net, iu.1)) :
    (bwdUser ctx ho net L1 st iu).budgets k = st.budgets k := by
  unfold bwdUser
  split
  · exact bwdClocked_budget_ne ctx ho net iu.1 _ _ L1 st k hk
  · exact foldl_pres _ (fun s => s.budgets k) _ st
      (fun s2 p _ => bwdPort_budget_ne ctx iu.2 net iu.1 _ _ L1 s2 p k hk)

theorem bwdUser_arr (ctx : Ctx) (ho : Bool) (net : Nat) (L1 : Int)
    (st : BwdState) (iu : Nat × PortRef) (m : Nat) :
    (atND (bwdUser ctx ho net L1 st iu).net_data m).max_arrival
      = (atND st.net_data m).max_arrival := by
  unfold bwdUser
  split
  · exact bwdClocked_arr ctx ho net iu.1 _ _ L1 st m
  · exact foldl_pres _ (fun s => (atND s.net_data m).max_arrival) _ st
      (fun s2 p _ => bwdPort_arr ctx iu.2 net iu.1 _ _ L1 s2 p m)

theorem bwdUser_len (ctx : Ctx) (ho : Bool) (net : Nat) (L1 : Int)
    (st : BwdState) (iu : Nat × PortRef) (m : Nat) :
    (atND (bwdUser ctx ho net L1 st iu).net_data m).max_path_length
      = (atND st.net_data m).max_path_length := by
  unfold bwdUser
  split
  · exact bwdClocked_len ctx ho net iu.1 _ _ L1 st m
  · exact foldl_pres _ (fun s => (atND s.net_data m).max_path_length) _ st
      (fun s2 p _ => bwdPort_len ctx iu.2 net iu.1 _ _ L1 s2 p m)

theorem bwdUser_mrb_le (ctx : Ctx) (ho : Bool) (net : Nat) (L1 : Int)
    (st : BwdState) (iu : Nat × PortRef) (m : Nat) :
    (atND (bwdUser ctx ho net L1 st iu).net_data m).min_remaining_budget
      ≤ (atND st.net_data m).min_remaining_budget := by
  unfold bwdUser
  split
  · exact bwdClocked_mrb_le ctx ho net iu.1 _ _ L1 st m
  · exact foldl_mono_le _ (fun s => (atND s.net_data m).min_remaining_budget) _ st
      (fun s2 p _ => bwdPort_mrb_le ctx iu.2 net iu.1 _ _ L1 s2 p m)

theorem bwdUser_ms_le (ctx : Ctx) (ho : Bool) (net : Nat) (L1 : Int)
    (st : BwdState) (iu : Nat × PortRef) :
    (bwdUser ctx ho net L1 st iu).min_slack ≤ st.min_slack := by
  unfold bwdUser
  split
  · exact bwdClocked_ms_le ctx ho net iu.1 _ _ L1 st
  · rw [foldl_pres _ (fun s => s.min_slack) _ st
      (fun s2 p _ => bwdPort_ms ctx iu.2 net iu.1 _ _ L1 s2 p)]

theorem bwdNet_budget_frame (ctx : Ctx) (ho : Bool) (st : BwdState) (net : Nat)
    (k : Nat × Nat) (hk : ∀ iu ∈ (usersOf ctx net).enum, k ≠ (net, iu.1)) :
    (bwdNet ctx ho st net).budgets k = st.budgets k := by
  unfold bwdNet
  exact foldl_pres _ (fun s => s.budgets k) _ st
    (fun s2 iu hiu => bwdUser_budget_ne ctx ho net _ s2 iu k (hk iu hiu))

theorem bwdNet_arr (ctx : Ctx) (ho : Bool) (st : BwdState) (net : Nat) (m : Nat) :
    (atND (bwdNet ctx ho st net).net_data m).max_arrival
      = (atND st.net_data m).max_arrival := by
  unfold bwdNet
  exact foldl_pres _ (fun s => (atND s.net_data m).max_arrival) _ st
    (fun s2 iu _ => bwdUser_arr ctx ho net _ s2 iu m)

theorem bwdNet_len (ctx : Ctx) (ho : Bool) (st : BwdState) (net : Nat) (m : Nat) :
    (atND (bwdNet ctx ho st net).net_data m).max_path_length
      = (atND st.net_data m).max_path_length := by
  unfold bwdNet
  exact foldl_pres _ (fun s => (atND s.net_data m).max_path_length) _ st
    (fun s2 iu _ => bwdUser_len ctx ho net _ s2 iu m)

theorem bwdNet_mrb_le (ctx : Ctx) (ho : Bool) (st : BwdState) (net : Nat) (m : Nat) :
    (atND (bwdNet ctx ho st net).net_data m).min_remaining_budget
      ≤ (atND st.net_data m).min_remaining_budget := by
  unfold bwdNet
  exact foldl_mono_le _ (fun s => (atND s.net_data m).min_remaining_budget) _ st
    (fun s2 iu _ => bwdUser_mrb_le ctx ho net _ s2 iu m)

theorem bwdNet_ms_le (ctx : Ctx) (ho : Bool) (st : BwdState) (net : Nat) :
    (bwdNet ctx ho st net).min_slack ≤ st.min_slack := by
  unfold bwdNet
  exact foldl_mono_le _ (fun s => s.min_slack) _ st
    (fun s2 iu _ => bwdUser_ms_le ctx ho net _ s2 iu)

theorem bwdFold_arr (ctx : Ctx) (ho : Bool) (l : List Nat) (st : BwdState) (m : Nat) :
    (atND (l.foldl (bwdNet ctx ho) st).net_data m).max_arrival
      = (atND st.net_data m).max_arrival :=
  foldl_pres _ (fun s => (atND s.net_data m).max_arrival) _ st
    (fun s2 n _ => bwdNet_arr ctx ho s2 n m)

theorem bwdFold_len (ctx : Ctx) (ho : Bool) (l : List Nat) (st : BwdState) (m : Nat) :
    (atND (l.foldl (bwdNet ctx ho) st).net_data m).max_path_length
      = (atND st.net_data m).max_path_length :=
  foldl_pres _ (fun s => (atND s.net_data m).max_path_length) _ st
    (fun s2 n _ => bwdNet_len ctx ho s2 n m)

theorem bwdFold_mrb_le (ctx : Ctx) (ho : Bool) (l : List Nat) (st : BwdState) (m : Nat) :
    (atND (l.foldl (bwdNet ctx ho) st).net_data m).min_remaining_budget
      ≤ (atND st.net_data m).min_remaining_budget :=
  foldl_mono_le _ (fun s => (atND s.net_data m).min_remaining_budget) _ st
    (fun s2 n _ => bwdNet_mrb_le ctx ho s2 n m)

theorem bwdFold_ms_le (ctx : Ctx) (ho : Bool) (l : List Nat) (st : BwdState) :
    (l.foldl (bwdNet ctx ho) st).min_slack ≤ st.min_slack :=
  foldl_mono_le _ (fun s => s.min_slack) _ st
    (fun s2 n _ => bwdNet_ms_le ctx ho s2 n)

theorem backwardPass_budget_frame (ctx : Ctx) (ho : Bool) (l : List Nat)
    (st : BwdState) (k : Nat × Nat)
    (hk : ∀ n ∈ l, ∀ iu ∈ (usersOf ctx n).enum, k ≠ (n, iu.1)) :
    (backwardPass ctx ho l st).budgets k = st.budgets k := by
  unfold backwardPass
  refine foldl_pres _ (fun s : BwdState => s.budgets k) _ _ (fun s2 n hn => ?_)
  exact bwdNet_budget_frame ctx ho s2 n k (hk n (List.mem_reverse.1 hn))

theorem walk_budgets_eq (ctx : Ctx) (nd u ho : Bool) (cp : List PortRef)
    (h0 : List (Int × Nat)) (b : Budgets) :
    (walk_paths ctx nd u ho cp h0 b).budgets
      = (backwardPass ctx ho (linearized ctx).order
          { net_data := forwardPass ctx (linearized ctx).order (seedPass ctx).net_data,
            budgets := b, min_slack := ctx.clk_period, hist := h0 }).budgets := rfl

/-- Budgets of connections on nets outside the linear order are never
written: the backward pass only touches keys of the nets it visits. -/
theorem walk_budget_frame_order (ctx : Ctx) (nd u ho : Bool) (cp : List PortRef)
    (h0 : List (Int × Nat)) (b : Budgets) (k : Nat × Nat)
    (hk : k.1 ∉ topographical_order ctx) :
    (walk_paths ctx nd u ho cp h0 b).budgets k = b k := by
  rw [walk_budgets_eq]
  refine backwardPass_budget_frame ctx ho _ _ k (fun n hn iu _ => ?_)
  intro he
  exact hk (by rw [show k.1 = n from by rw [he]] ; exact hn)

theorem walk_nd_eq (ctx : Ctx) (nd u ho : Bool) (cp : List PortRef)
    (h0 : List (Int × Nat)) (b : Budgets) :
    (walk_paths ctx nd u ho cp h0 b).net_data
      = (backwardPass ctx ho (linearized ctx).order
          { net_data := forwardPass ctx (linearized ctx).order (seedPass ctx).net_data,
            budgets := b, min_slack := ctx.clk_period, hist := h0 }).net_data := rfl

theorem bwdUserFold_arr (ctx : Ctx) (ho : Bool) (net : Nat) (L1 : Int)
    (e : List (Nat × PortRef)) (st : BwdState) (m : Nat) :
    (atND (e.foldl (bwdUser ctx ho net L1) st).net_data m).max_arrival
      = (atND st.net_data m).max_arrival :=
  foldl_pres _ (fun s : BwdState => (atND s.net_data m).max_arrival) _ st
    (fun s2 iu _ => bwdUser_arr ctx ho net L1 s2 iu m)

theorem bwdUserFold_len (ctx : Ctx) (ho : Bool) (net : Nat) (L1 : Int)
    (e : List (Nat × PortRef)) (st : BwdState) (m : Nat) :
    (atND (e.foldl (bwdUser ctx ho net L1) st).net_data m).max_path_length
      = (atND st.net_data m).max_path_length :=
  foldl_pres _ (fun s : BwdState => (atND s.net_data m).max_path_length) _ st
    (fun s2 iu _ => bwdUser_len ctx ho net L1 s2 iu m)

theorem bwdUserFold_mrb_le (ctx : Ctx) (ho : Bool) (net : Nat) (L1 : Int)
    (e : List (Nat × PortRef)) (st : BwdState) (m : Nat) :
    (atND (e.foldl (bwdUser ctx ho net L1) st).net_data m).min_remaining_budget
      ≤ (atND st.net_data m).min_remaining_budget :=
  foldl_mono_le _ (fun s : BwdState => (atND s.net_data m).min_remaining_budget) _ st
    (fun s2 iu _ => bwdUser_mrb_le ctx ho net L1 s2 iu m)

theorem bwdClocked_mrb_self (ctx : Ctx) (ho : Bool) (net i : Nat) (d : Int)
    (ovr : Bool) (L1 : Int) (st : BwdState) :
    (atND (bwdClocked ctx ho net i d ovr L1 st).net_data net).min_remaining_budget
      = min (atND st.net_data net).min_remaining_budget
          ((ctx.clk_period - ((atND st.net_data net).max_arrival + d))
            - (if ovr then 0
               else Int.tdiv (ctx.clk_period - ((atND st.net_data net).max_arrival + d)) L1)) := by
  simp only [bwdClocked]
  rw [atND_set_self]

/-- C2 amended: when the work-queue of the Dependency Linearizer empties
while some output port still has nonzero in-degree, the pass does NOT
abort and reports no structural error: it silently returns the truncated
order, and the cycle-trapped nets and their sink connections are simply
absent - in particular, for every net outside the produced order, every
budget of its sink connections is left exactly as it was. -/
theorem c2_amended_dropped_nets_budgets_untouched (ctx : Ctx) (nd u ho : Bool)
    (cp : List PortRef) (h0 : List (Int × Nat)) (b : Budgets) (n i : Nat)
    (hn : n ∉ topographical_order ctx) :
    (walk_paths ctx nd u ho cp h0 b).budgets (n, i) = b (n, i) :=
  walk_budget_frame_order ctx nd u ho cp h0 b (n, i) hn

theorem c2_amended_witness :
    (1 ∉ topographical_order ctxCy) ∧
      (walk_paths ctxCy true false false [] [] (fun _ => 42)).budgets (1, 0) = 42 :=
  ⟨by decide,
    c2_amended_dropped_nets_budgets_untouched ctxCy true false false [] []
      (fun _ => 42) 1 0 (by decide)⟩

/-- C10: during the backward pass, a clocked (path-terminus) sink
connection also tightens the min_remaining_budget of its own driving net
to at most path_budget minus budget_share (line 264 of the source), so a
net feeding both a register and further logic has its upstream budget
distribution constrained by the register path. -/
theorem c10_clocked_sink_tightens_min_remaining (ctx : Ctx) (nd u ho : Bool)
    (cp : List PortRef) (h0 : List (Int × Nat)) (b : Budgets) (n : Nat) (usr : PortRef)
    (hn : n ∈ topographical_order ctx)
    (hu : usr ∈ usersOf ctx n)
    (hclk : (ctx.portClock usr.cell usr.port).isSome = true) :
    (atND (walk_paths ctx nd u ho cp h0 b).net_data n).min_remaining_budget
      ≤ termPathBudget ctx (walk_paths ctx nd u ho cp h0 b) n usr
        - termShare ctx (walk_paths ctx nd u ho cp h0 b) n usr := by
  have hmem : n ∈ (linearized ctx).order.reverse := List.mem_reverse.2 hn
  obtain ⟨l1, l2, hsplit⟩ := List.append_of_mem hmem
  have hj : ∃ j, (j, usr) ∈ (usersOf ctx n).enum := by
    obtain ⟨idx, hidx⟩ := List.mem_iff_getElem?.1 hu
    exact ⟨idx, List.mk_mem_enum_iff_getElem?.2 hidx⟩
  obtain ⟨j, hj⟩ := hj
  obtain ⟨e1, e2, hesplit⟩ := List.append_of_mem hj
  unfold termShare termPathBudget realizedDelay
  rw [walk_nd_eq ctx nd u ho cp h0 b]
  have h1 : backwardPass ctx ho (linearized ctx).order
      { net_data := forwardPass ctx (linearized ctx).order (seedPass ctx).net_data,
        budgets := b, min_slack := ctx.clk_period, hist := h0 }
      = l2.foldl (bwdNet ctx ho)
          (bwdNet ctx ho
            (l1.foldl (bwdNet ctx ho)
              { net_data := forwardPass ctx (linearized ctx).order (seedPass ctx).net_data,
                budgets := b, min_slack := ctx.clk_period, hist := h0 }) n) := by
    unfold backwardPass
    rw [hsplit, List.foldl_append, List.foldl_cons]
  rw [h1]
  set s1 := l1.foldl (bwdNet ctx ho)
    { net_data := forwardPass ctx (linearized ctx).order (seedPass ctx).net_data,
      budgets := b, min_slack := ctx.clk_period, hist := h0 } with hs1
  have harr : (atND (l2.foldl (bwdNet ctx ho) (bwdNet ctx ho s1 n)).net_data n).max_arrival
      = (atND s1.net_data n).max_arrival := by
    rw [bwdFold_arr, bwdNet_arr]
  have hlen : (atND (l2.foldl (bwdNet ctx ho) (bwdNet ctx ho s1 n)).net_data n).max_path_length
      = (atND s1.net_data n).max_path_length := by
    rw [bwdFold_len, bwdNet_len]
  rw [harr, hlen]
  have hnet : bwdNet ctx ho s1 n
      = e2.foldl (bwdUser ctx ho n (((atND s1.net_data n).max_path_length : Int) + 1))
          (bwdUser ctx ho n (((atND s1.net_data n).max_path_length : Int) + 1)
            (e1.foldl (bwdUser ctx ho n (((atND s1.net_data n).max_path_length : Int) + 1)) s1)
            (j, usr)) := by
    show ((usersOf ctx n).enum).foldl
        (bwdUser ctx ho n (((atND s1.net_data n).max_path_length : Int) + 1)) s1 = _
    rw [hesplit, List.foldl_append, List.foldl_cons]
  rw [hnet]
  set sP := e1.foldl (bwdUser ctx ho n (((atND s1.net_data n).max_path_length : Int) + 1)) s1
    with hsP
  have harrP : (atND sP.net_data n).max_arrival = (atND s1.net_data n).max_arrival := by
    rw [hsP]
    exact bwdUserFold_arr ctx ho n _ e1 s1 n
  have hbu : bwdUser ctx ho n (((atND s1.net_data n).max_path_length : Int) + 1) sP (j, usr)
      = bwdClocked ctx ho n j ((ctx.budgetOverride n usr).getD (ctx.routeDelay n usr))
          (ctx.budgetOverride n usr).isSome
          (((atND s1.net_data n).max_path_length : Int) + 1) sP := by
    simp only [bwdUser]
    rw [if_pos hclk]
  rw [hbu]
  refine le_trans (bwdFold_mrb_le ctx ho l2 _ n)
    (le_trans (bwdUserFold_mrb_le ctx ho n _ e2 _ n) ?_)
  rw [bwdClocked_mrb_self]
  refine le_trans (min_le_right _ _) (le_of_eq ?_)
  rw [harrP]

theorem c10_witness :
    (1 ∈ topographical_order (ctxB 0)) ∧
      (atND (walk_paths (ctxB 0) true true false [] [] (fun _ => 0)).net_data 1).min_remaining_budget
        ≤ termPathBudget (ctxB 0) (walk_paths (ctxB 0) true true false [] [] (fun _ => 0)) 1 ⟨2, 3⟩
          - termShare (ctxB 0) (walk_paths (ctxB 0) true true false [] [] (fun _ => 0)) 1 ⟨2, 3⟩ :=
  ⟨by decide,
    c10_clocked_sink_tightens_min_remaining (ctxB 0) true true false [] [] (fun _ => 0)
      1 ⟨2, 3⟩ (by decide) (by decide) (by decide)⟩

/-! ## Override lemmas for C6. -/

theorem setBudget_self (b : Budgets) (k : Nat × Nat) (v : Int) :
    setBudget b k v k = v := by
  simp [setBudget]

theorem enum_index_inj {α : Type _} (l : List α) (j : Nat) (x y : α)
    (h1 : (j, x) ∈ l.enum) (h2 : (j, y) ∈ l.enum) : x = y := by
  have e1 := List.mk_mem_enum_iff_getElem?.1 h1
  have e2 := List.mk_mem_enum_iff_getElem?.1 h2
  rw [e1] at e2
  exact Option.some_inj.1 e2

theorem bwdClocked_budget_self (ctx : Ctx) (ho : Bool) (net i : Nat) (d : Int)
    (ovr : Bool) (L1 : Int) (st : BwdState) :
    (bwdClocked ctx ho net i d ovr L1 st).budgets (net, i)
      = min (st.budgets (net, i))
          (d + (if ovr then 0
                else Int.tdiv (ctx.clk_period - ((atND st.net_data net).max_arrival + d)) L1)) := by
  simp only [bwdClocked]
  exact setBudget_self _ _ _

theorem bwdPort_ovr_inv (ctx : Ctx) (usr : PortRef) (net i : Nat) (D : Int)
    (L1 : Int) (s : BwdState) (p : PortInfo) :
    (bwdPort ctx usr net i D true L1 s p).budgets (net, i) = s.budgets (net, i)
      ∨ (bwdPort ctx usr net i D true L1 s p).budgets (net, i)
          = min (s.budgets (net, i)) D := by
  unfold bwdPort
  split
  · split
    · right
      simp only [cond_true, if_true]
      rw [setBudget_self]
      norm_num
    · left; rfl
  · left; rfl

theorem bwdPort_ovr_hit (ctx : Ctx) (usr : PortRef) (net i : Nat) (D : Int)
    (L1 : Int) (s : BwdState) (p : PortInfo)
    (hp1 : p.type = PortType.pOut) (hp2 : p.net.isSome = true)
    (hp3 : (ctx.cellDelay usr.cell usr.port p.name).isSome = true) :
    (bwdPort ctx usr net i D true L1 s p).budgets (net, i)
      = min (s.budgets (net, i)) D := by
  obtain ⟨m, hm⟩ := Option.isSome_iff_exists.1 hp2
  obtain ⟨cd, hcd⟩ := Option.isSome_iff_exists.1 hp3
  unfold bwdPort
  simp only [hp1, hm, hcd]
  rw [setBudget_self]
  norm_num

theorem bwdUser_ovr_inv (ctx : Ctx) (ho : Bool) (net : Nat) (L1 : Int)
    (st : BwdState) (j : Nat) (usr : PortRef) (D : Int)
    (hov : ctx.budgetOverride net usr = some D) :
    (bwdUser ctx ho net L1 st (j, usr)).budgets (net, j) = st.budgets (net, j)
      ∨ (bwdUser ctx ho net L1 st (j, usr)).budgets (net, j)
          = min (st.budgets (net, j)) D := by
  unfold bwdUser
  simp only [hov, Option.getD_some, Option.isSome_some]
  split
  · right
    rw [bwdClocked_budget_self]
    norm_num
  · refine foldl_inv _ (fun s : BwdState =>
      s.budgets (net, j) = st.budgets (net, j)
        ∨ s.budgets (net, j) = min (st.budgets (net, j)) D) _ st
      (fun s2 p _ hP => ?_) (Or.inl rfl)
    rcases bwdPort_ovr_inv ctx usr net j D L1 s2 p with he | he
    · rw [he]; exact hP
    · rcases hP with h2 | h2
      · right; rw [he, h2]
      · right; rw [he, h2, min_assoc, min_self]

theorem bwdUser_ovr_written (ctx : Ctx) (ho : Bool) (net : Nat) (L1 : Int)
    (st : BwdState) (j : Nat) (usr : PortRef) (D : Int)
    (hov : ctx.budgetOverride net usr = some D)
    (hw : (ctx.portClock usr.cell usr.port).isSome = true
      ∨ ∃ p ∈ portsOf ctx usr.cell, p.type = PortType.pOut ∧ p.net.isSome = true
          ∧ (ctx.cellDelay usr.cell usr.port p.name).isSome = true) :
    (bwdUser ctx ho net L1 st (j, usr)).budgets (net, j)
      = min (st.budgets (net, j)) D := by
  unfold bwdUser
  simp only [hov, Option.getD_some, Option.isSome_some]
  by_cases hclk : (ctx.portClock usr.cell usr.port).isSome = true
  · rw [if_pos hclk, bwdClocked_budget_self]
    norm_num
  · rw [if_neg hclk]
    rcases hw with hw | hw
    · exact absurd hw hclk
    obtain ⟨p, hpmem, hp1, hp2, hp3⟩ := hw
    obtain ⟨q1, q2, hqsplit⟩ := List.append_of_mem hpmem
    rw [hqsplit, List.foldl_append, List.foldl_cons]
    have hpre : (q1.foldl (bwdPort ctx usr net j D true L1) st).budgets (net, j)
        = st.budgets (net, j)
        ∨ (q1.foldl (bwdPort ctx usr net j D true L1) st).budgets (net, j)
            = min (st.budgets (net, j)) D := by
      refine foldl_inv _ (fun s : BwdState =>
        s.budgets (net, j) = st.budgets (net, j)
          ∨ s.budgets (net, j) = min (st.budgets (net, j)) D) _ st
        (fun s2 p2 _ hP => ?_) (Or.inl rfl)
      rcases bwdPort_ovr_inv ctx usr net j D L1 s2 p2 with he | he
      · rw [he]; exact hP
      · rcases hP with h2 | h2
        · right; rw [he, h2]
        · right; rw [he, h2, min_assoc, min_self]
    have hhit : (bwdPort ctx usr net j D true L1
          (q1.foldl (bwdPort ctx usr net j D true L1) st) p).budgets (net, j)
        = min (st.budgets (net, j)) D := by
      rw [bwdPort_ovr_hit ctx usr net j D L1 _ p hp1 hp2 hp3]
      rcases hpre with h2 | h2
      · rw [h2]
      · rw [h2, min_assoc, min_self]
    refine foldl_inv _ (fun s : BwdState =>
      s.budgets (net, j) = min (st.budgets (net, j)) D) _ _
      (fun s2 p2 _ hP => ?_) hhit
    rcases bwdPort_ovr_inv ctx usr net j D L1 s2 p2 with he | he
    · rw [he]; exact hP
    · rw [he, hP, min_assoc, min_self]

theorem bwdNet_ovr_inv (ctx : Ctx) (ho : Bool) (s : BwdState) (n : Nat)
    (j : Nat) (usr : PortRef) (D : Int)
    (hov : ctx.budgetOverride n usr = some D)
    (hj : (j, usr) ∈ (usersOf ctx n).enum) :
    (bwdNet ctx ho s n).budgets (n, j) = s.budgets (n, j)
      ∨ (bwdNet ctx ho s n).budgets (n, j) = min (s.budgets (n, j)) D := by
  have hshape : bwdNet ctx ho s n = ((usersOf ctx n).enum).foldl
      (bwdUser ctx ho n (((atND s.net_data n).max_path_length : Int) + 1)) s := rfl
  rw [hshape]
  refine foldl_inv _ (fun s2 : BwdState =>
    s2.budgets (n, j) = s.budgets (n, j)
      ∨ s2.budgets (n, j) = min (s.budgets (n, j)) D) _ s
    (fun s2 iu hiu hP => ?_) (Or.inl rfl)
  beta_reduce at hP ⊢
  by_cases hij : iu.1 = j
  · obtain ⟨i1, u2⟩ := iu
    simp only at hij
    subst hij
    have hu2 : u2 = usr := enum_index_inj _ _ _ _ hiu hj
    subst hu2
    rcases bwdUser_ovr_inv ctx ho n _ s2 i1 u2 D hov with he | he
    · rw [he]; exact hP
    · rcases hP with h2 | h2
      · right; rw [he, h2]
      · right; rw [he, h2, min_assoc, min_self]
  · rw [bwdUser_budget_ne ctx ho n _ s2 iu (n, j)
      (by intro he; exact hij (by rw [Prod.ext_iff] at he; exact he.2.symm))]
    exact hP

theorem bwdNet_ovr_written (ctx : Ctx) (ho : Bool) (s : BwdState) (n : Nat)
    (j : Nat) (usr : PortRef) (D : Int)
    (hov : ctx.budgetOverride n usr = some D)
    (hj : (j, usr) ∈ (usersOf ctx n).enum)
    (hw : (ctx.portClock usr.cell usr.port).isSome = true
      ∨ ∃ p ∈ portsOf ctx usr.cell, p.type = PortType.pOut ∧ p.net.isSome = true
          ∧ (ctx.cellDelay usr.cell usr.port p.name).isSome = true) :
    (bwdNet ctx ho s n).budgets (n, j) = min (s.budgets (n, j)) D := by
  have hshape : bwdNet ctx ho s n = ((usersOf ctx n).enum).foldl
      (bwdUser ctx ho n (((atND s.net_data n).max_path_length : Int) + 1)) s := rfl
  set L1 : Int := ((atND s.net_data n).max_path_length : Int) + 1 with hL1
  rw [hshape]
  obtain ⟨e1, e2, hesplit⟩ := List.append_of_mem hj
  rw [hesplit, List.foldl_append, List.foldl_cons]
  have hpre : (e1.foldl (bwdUser ctx ho n L1) s).budgets (n, j) = s.budgets (n, j)
      ∨ (e1.foldl (bwdUser ctx ho n L1) s).budgets (n, j) = min (s.budgets (n, j)) D := by
    refine foldl_inv _ (fun s2 : BwdState =>
      s2.budgets (n, j) = s.budgets (n, j)
        ∨ s2.budgets (n, j) = min (s.budgets (n, j)) D) _ s
      (fun s2 iu hiu hP => ?_) (Or.inl rfl)
    beta_reduce at hP ⊢
    have hiu2 : iu ∈ (usersOf ctx n).enum := by
      rw [hesplit]; exact List.mem_append_left _ hiu
    by_cases hij : iu.1 = j
    · obtain ⟨i1, u2⟩ := iu
      simp only at hij
      subst hij
      have hu2 : u2 = usr := enum_index_inj _ _ _ _ hiu2 hj
      subst hu2
      rcases bwdUser_ovr_inv ctx ho n L1 s2 i1 u2 D hov with he | he
      · rw [he]; exact hP
      · rcases hP with h2 | h2
        · right; rw [he, h2]
        · right; rw [he, h2, min_assoc, min_self]
    · rw [bwdUser_budget_ne ctx ho n L1 s2 iu (n, j)
        (by intro he; exact hij (by rw [Prod.ext_iff] at he; exact he.2.symm))]
      exact hP
  have hhit : (bwdUser ctx ho n L1 (e1.foldl (bwdUser ctx ho n L1) s) (j, usr)).budgets (n, j)
      = min (s.budgets (n, j)) D := by
    rw [bwdUser_ovr_written ctx ho n L1 _ j usr D hov hw]
    rcases hpre with h2 | h2
    · rw [h2]
    · rw [h2, min_assoc, min_self]
  refine foldl_inv _ (fun s2 : BwdState =>
    s2.budgets (n, j) = min (s.budgets (n, j)) D) _ _
    (fun s2 iu hiu hP => ?_) hhit
  beta_reduce at hP ⊢
  have hiu2 : iu ∈ (usersOf ctx n).enum := by
    rw [hesplit]
    exact List.mem_append_right _ (List.mem_cons_of_mem _ hiu)
  by_cases hij : iu.1 = j
  · obtain ⟨i1, u2⟩ := iu
    simp only at hij
    subst hij
    have hu2 : u2 = usr := enum_index_inj _ _ _ _ hiu2 hj
    subst hu2
    rcases bwdUser_ovr_inv ctx ho n L1 s2 i1 u2 D hov with he | he
    · rw [he]; exact hP
    · rw [he, hP, min_assoc, min_self]
  · rw [bwdUser_budget_ne ctx ho n L1 s2 iu (n, j)
      (by intro he; exact hij (by rw [Prod.ext_iff] at he; exact he.2.symm))]
    exact hP

theorem backwardPass_ovr (ctx : Ctx) (ho : Bool) (l : List Nat) (st : BwdState)
    (n : Nat) (j : Nat) (usr : PortRef) (D : Int)
    (hov : ctx.budgetOverride n usr = some D)
    (hj : (j, usr) ∈ (usersOf ctx n).enum)
    (hw : (ctx.portClock usr.cell usr.port).isSome = true
      ∨ ∃ p ∈ portsOf ctx usr.cell, p.type = PortType.pOut ∧ p.net.isSome = true
          ∧ (ctx.cellDelay usr.cell usr.port p.name).isSome = true)
    (hn : n ∈ l) :
    (backwardPass ctx ho l st).budgets (n, j) = min (st.budgets (n, j)) D := by
  unfold backwardPass
  obtain ⟨l1, l2, hsplit⟩ := List.append_of_mem (List.mem_reverse.2 hn)
  rw [hsplit, List.foldl_append, List.foldl_cons]
  have hpre : (l1.foldl (bwdNet ctx ho) st).budgets (n, j) = st.budgets (n, j)
      ∨ (l1.foldl (bwdNet ctx ho) st).budgets (n, j) = min (st.budgets (n, j)) D := by
    refine foldl_inv _ (fun s2 : BwdState =>
      s2.budgets (n, j) = st.budgets (n, j)
        ∨ s2.budgets (n, j) = min (st.budgets (n, j)) D) _ st
      (fun s2 n2 _ hP => ?_) (Or.inl rfl)
    beta_reduce at hP ⊢
    by_cases hn2 : n2 = n
    · subst hn2
      rcases bwdNet_ovr_inv ctx ho s2 n2 j usr D hov hj with he | he
      · rw [he]; exact hP
      · rcases hP with h2 | h2
        · right; rw [he, h2]
        · right; rw [he, h2, min_assoc, min_self]
    · rw [bwdNet_budget_frame ctx ho s2 n2 (n, j)
        (fun iu _ => by intro he; exact hn2 (by rw [Prod.ext_iff] at he; exact he.1.symm))]
      exact hP
  have hhit : (bwdNet ctx ho (l1.foldl (bwdNet ctx ho) st) n).budgets (n, j)
      = min (st.budgets (n, j)) D := by
    rw [bwdNet_ovr_written ctx ho _ n j usr D hov hj hw]
    rcases hpre with h2 | h2
    · rw [h2]
    · rw [h2, min_assoc, min_self]
  refine foldl_inv _ (fun s2 : BwdState =>
    s2.budgets (n, j) = min (st.budgets (n, j)) D) _ _
    (fun s2 n2 _ hP => ?_) hhit
  beta_reduce at hP ⊢
  by_cases hn2 : n2 = n
  · subst hn2
    rcases bwdNet_ovr_inv ctx ho s2 n2 j usr D hov hj with he | he
    · rw [he]; exact hP
    · rw [he, hP, min_assoc, min_self]
  · rw [bwdNet_budget_frame ctx ho s2 n2 (n, j)
      (fun iu _ => by intro he; exact hn2 (by rw [Prod.ext_iff] at he; exact he.1.symm))]
    exact hP

theorem fwdTarget_len_ovr (ua : Int) (L1 : Nat) (s : NetData) (m2 : Nat)
    (cdv : Int) (m : Nat) :
    (atND (fwdTarget ua L1 true s m2 cdv) m).max_path_length
      = (atND s m).max_path_length := by
  unfold fwdTarget
  simp only [if_true]
  by_cases hm : m = m2
  · subst hm; rw [atND_set_self]
  · rw [atND_set_ne _ _ _ _ hm]

theorem fwdPort_len_ovr (ctx : Ctx) (usr : PortRef) (ua : Int) (L1 : Nat)
    (s : NetData) (p : PortInfo) (m : Nat) :
    (atND (fwdPort ctx usr ua L1 true s p) m).max_path_length
      = (atND s m).max_path_length := by
  unfold fwdPort
  split
  · split
    · exact fwdTarget_len_ovr ua L1 s _ _ m
    · rfl
  · rfl

theorem resetNet_keeps_max (acc : Budgets) (en : Nat × NetInfo) (k : Nat × Nat)
    (h : acc k = MAXDELAY) : resetNet acc en k = MAXDELAY := by
  unfold resetNet
  refine foldl_inv _ (fun a : Budgets => a k = MAXDELAY) _ acc
    (fun a iu _ hP => ?_) h
  beta_reduce at hP ⊢
  by_cases hk : k = (en.1, iu.1)
  · rw [hk, setBudget_self]
  · rw [setBudget_ne _ _ _ _ hk]; exact hP

theorem resetBudgets_covered (ctx : Ctx) (b : Budgets) (n : Nat) (ni : NetInfo)
    (j : Nat) (usr : PortRef) (hmem : (n, ni) ∈ ctx.nets)
    (hj : (j, usr) ∈ ni.users.enum) :
    resetBudgets ctx b (n, j) = MAXDELAY := by
  unfold resetBudgets
  obtain ⟨l1, l2, hsplit⟩ := List.append_of_mem hmem
  rw [hsplit, List.foldl_append, List.foldl_cons]
  have hhit : resetNet (l1.foldl resetNet b) (n, ni) (n, j) = MAXDELAY := by
    unfold resetNet
    obtain ⟨e1, e2, hesplit⟩ := List.append_of_mem hj
    rw [hesplit, List.foldl_append, List.foldl_cons]
    refine foldl_inv _ (fun a : Budgets => a (n, j) = MAXDELAY) _ _
      (fun a iu _ hP => ?_) (setBudget_self _ _ _)
    beta_reduce at hP ⊢
    by_cases hk : ((n : Nat), j) = ((n, ni).1, iu.1)
    · rw [hk, setBudget_self]
    · rw [setBudget_ne _ _ _ _ hk]; exact hP
  refine foldl_inv _ (fun a : Budgets => a (n, j) = MAXDELAY) _ _
    (fun a en2 _ hP => resetNet_keeps_max a en2 (n, j) hP) hhit

/-- C6: for a connection carrying a pinned budget override D, (a) the
override value is the realized delay of the connection in both passes
(realizedDelay is the override by construction, mirroring lines 228-229
and 257-258), (b) its proportional share is zero, so in budgeting mode
(assign_budget resets budgets to the maximum representable delay first)
its final budget is exactly D, and (c) its forward-propagation step never
raises max_path_length of any downstream net. Hypotheses: the connection
is the j-th user of net n, n is reachable in the order, and the sink is a
terminus or has at least one combinationally reached output (otherwise
the backward pass never visits the connection). -/
theorem c6_override_budget_exact (ctx : Ctx) (b : Budgets) (n : Nat)
    (j : Nat) (usr : PortRef) (D : Int)
    (hj : (j, usr) ∈ (usersOf ctx n).enum)
    (hov : ctx.budgetOverride n usr = some D)
    (hD : D ≤ MAXDELAY)
    (hn : n ∈ topographical_order ctx)
    (hw : (ctx.portClock usr.cell usr.port).isSome = true
      ∨ ∃ p ∈ portsOf ctx usr.cell, p.type = PortType.pOut ∧ p.net.isSome = true
          ∧ (ctx.cellDelay usr.cell usr.port p.name).isSome = true) :
    (assign_budget ctx b).budgets (n, j) = D
      ∧ ∀ (arr : Int) (L1 : Nat) (ndx : NetData) (m : Nat),
          (atND (fwdUser ctx n arr L1 ndx usr) m).max_path_length
            = (atND ndx m).max_path_length := by
  constructor
  · have hb : (assign_budget ctx b).budgets
        = (backwardPass ctx false (linearized ctx).order
            { net_data := forwardPass ctx (linearized ctx).order (seedPass ctx).net_data,
              budgets := resetBudgets ctx b, min_slack := ctx.clk_period,
              hist := [] }).budgets := rfl
    have hn2 : n ∈ (linearized ctx).order := hn
    rw [hb, backwardPass_ovr ctx false ((linearized ctx).order) _ n j usr D hov hj hw hn2]
    have hres : resetBudgets ctx b (n, j) = MAXDELAY := by
      have hexists : ∃ ni, findNet ctx n = some ni ∧ (j, usr) ∈ ni.users.enum := by
        unfold usersOf at hj
        cases hfind : findNet ctx n with
        | none => rw [hfind] at hj; simp at hj
        | some ni => exact ⟨ni, rfl, by rw [hfind] at hj; exact hj⟩
      obtain ⟨ni, hfind, hj2⟩ := hexists
      exact resetBudgets_covered ctx b n ni j usr (findNet_mem ctx n ni hfind) hj2
    show min (resetBudgets ctx b (n, j)) D = D
    rw [hres]
    exact min_eq_right hD
  · intro arr L1 ndx m
    unfold fwdUser
    split
    · rfl
    · simp only [hov, Option.isSome_some]
      exact foldl_pres _ (fun s : NetData => (atND s m).max_path_length) _ ndx
        (fun s2 p _ => fwdPort_len_ovr ctx usr _ L1 s2 p m)

theorem c6_witness :
    ((0, (⟨1, 3⟩ : PortRef)) ∈ (usersOf ctxOv 0).enum) ∧
      (assign_budget ctxOv (fun _ => 0)).budgets (0, 0) = 3 :=
  ⟨by decide,
    (c6_override_budget_exact ctxOv (fun _ => 0) 0 0 ⟨1, 3⟩ 3 (by decide) (by decide)
      (by decide) (by decide) (Or.inl (by decide))).1⟩

/-! ## Reset and frame lemmas for C7. -/

theorem resetBudgets_not_covered (ctx : Ctx) (b : Budgets) (k : Nat × Nat)
    (hk : ¬ InNets ctx k) : resetBudgets ctx b k = b k := by
  unfold resetBudgets
  refine foldl_pres _ (fun a : Budgets => a k) _ b (fun a en hen => ?_)
  unfold resetNet
  refine foldl_pres _ (fun a2 : Budgets => a2 k) _ a (fun a2 iu hiu => ?_)
  beta_reduce
  refine setBudget_ne _ _ _ _ ?_
  intro he
  exact hk ⟨en, hen, iu, hiu, he⟩

theorem usersOf_enum_net (ctx : Ctx) (n : Nat) (iu : Nat × PortRef)
    (hiu : iu ∈ (usersOf ctx n).enum) :
    ∃ ni, findNet ctx n = some ni ∧ iu ∈ ni.users.enum := by
  unfold usersOf at hiu
  cases hfind : findNet ctx n with
  | none => rw [hfind] at hiu; simp at hiu
  | some ni => exact ⟨ni, rfl, by rw [hfind] at hiu; exact hiu⟩

theorem walk_budget_frame_inNets (ctx : Ctx) (nd u ho : Bool) (cp : List PortRef)
    (h0 : List (Int × Nat)) (b : Budgets) (k : Nat × Nat)
    (hk : ¬ InNets ctx k) :
    (walk_paths ctx nd u ho cp h0 b).budgets k = b k := by
  rw [walk_budgets_eq]
  refine backwardPass_budget_frame ctx ho _ _ k (fun n hn iu hiu => ?_)
  intro he
  obtain ⟨ni, hfind, hiu2⟩ := usersOf_enum_net ctx n iu hiu
  exact hk ⟨(n, ni), findNet_mem ctx n ni hfind, iu, hiu2, he⟩

/-- C7 amended: invoking budgeting mode a second time immediately after a
first invocation, with no netlist change and the same delay model, leaves
every budget at exactly its first-run value (in particular not larger),
PROVIDED the adaptive-frequency retune does not fire (auto_freq off or
slack_redist_iter zero). With the retune active and negative slack, the
target period grows and budgets can grow (see the counterexample). -/
theorem c7_amended_second_run_reproduces (ctx : Ctx) (b : Budgets)
    (h : ¬(ctx.auto_freq = true ∧ 0 < ctx.slack_redist_iter)) (k : Nat × Nat) :
    (assign_budget (assign_budget ctx b).ctx (assign_budget ctx b).budgets).budgets k
        = (assign_budget ctx b).budgets k
      ∧ (assign_budget (assign_budget ctx b).ctx (assign_budget ctx b).budgets).budgets k
          ≤ (assign_budget ctx b).budgets k := by
  have hctx : (assign_budget ctx b).ctx = ctx := by
    simp only [assign_budget]
    rw [if_neg h]
  rw [hctx]
  have hw1 : (assign_budget ctx b).budgets
      = (walk_paths ctx (decide (0 < ctx.slack_redist_iter)) true false [] []
          (resetBudgets ctx b)).budgets := rfl
  have hreset : resetBudgets ctx ((assign_budget ctx b).budgets) = resetBudgets ctx b := by
    funext k2
    by_cases hcov : InNets ctx k2
    · obtain ⟨en, hen, iu, hiu, hk2⟩ := hcov
      rw [hk2, resetBudgets_covered ctx _ en.1 en.2 iu.1 iu.2 hen hiu,
        resetBudgets_covered ctx b en.1 en.2 iu.1 iu.2 hen hiu]
    · rw [resetBudgets_not_covered ctx _ k2 hcov,
        resetBudgets_not_covered ctx b k2 hcov, hw1,
        walk_budget_frame_inNets ctx _ true false [] [] _ k2 hcov,
        resetBudgets_not_covered ctx b k2 hcov]
  have hfinal : (assign_budget ctx ((assign_budget ctx b).budgets)).budgets
      = (assign_budget ctx b).budgets := by
    show (walk_paths ctx (decide (0 < ctx.slack_redist_iter)) true false [] []
        (resetBudgets ctx ((assign_budget ctx b).budgets))).budgets
      = (assign_budget ctx b).budgets
    rw [hreset]
    exact hw1.symm
  exact ⟨congrFun hfinal k, le_of_eq (congrFun hfinal k)⟩

theorem c7_witness :
    ¬((ctxB 0).auto_freq = true ∧ 0 < (ctxB 0).slack_redist_iter) ∧
      (assign_budget (assign_budget (ctxB 0) (fun _ => 0)).ctx
          (assign_budget (ctxB 0) (fun _ => 0)).budgets).budgets (1, 0)
        ≤ (assign_budget (ctxB 0) (fun _ => 0)).budgets (1, 0) :=
  ⟨by decide,
    (c7_amended_second_run_reproduces (ctxB 0) (fun _ => 0) (by decide) (1, 0)).2⟩

/-! ## Minimum-slack lemmas for C5. -/

theorem backwardPass_shape (ctx : Ctx) (ho : Bool) (l : List Nat) (st : BwdState) :
    backwardPass ctx ho l st = l.reverse.foldl (bwdNet ctx ho) st := rfl

theorem walk_ms_eq (ctx : Ctx) (nd u ho : Bool) (cp : List PortRef)
    (h0 : List (Int × Nat)) (b : Budgets) :
    (walk_paths ctx nd u ho cp h0 b).min_slack
      = (backwardPass ctx ho (linearized ctx).order
          { net_data := forwardPass ctx (linearized ctx).order (seedPass ctx).net_data,
            budgets := b, min_slack := ctx.clk_period, hist := h0 }).min_slack := rfl

theorem walk_order_eq (ctx : Ctx) (nd u ho : Bool) (cp : List PortRef)
    (h0 : List (Int × Nat)) (b : Budgets) :
    (walk_paths ctx nd u ho cp h0 b).order = (linearized ctx).order := rfl

theorem backwardPass_arr (ctx : Ctx) (ho : Bool) (l : List Nat) (st : BwdState) (m : Nat) :
    (atND (backwardPass ctx ho l st).net_data m).max_arrival
      = (atND st.net_data m).max_arrival := by
  rw [backwardPass_shape]
  exact bwdFold_arr ctx ho l.reverse st m

theorem bwdClocked_ms_self (ctx : Ctx) (ho : Bool) (net i : Nat) (d : Int)
    (ovr : Bool) (L1 : Int) (st : BwdState) :
    (bwdClocked ctx ho net i d ovr L1 st).min_slack
      = min st.min_slack (ctx.clk_period - ((atND st.net_data net).max_arrival + d)) := by
  simp only [bwdClocked]

theorem bwdUser_ms_notclocked (ctx : Ctx) (ho : Bool) (net : Nat) (L1 : Int)
    (st : BwdState) (iu : Nat × PortRef)
    (hclk : ¬ (ctx.portClock iu.2.cell iu.2.port).isSome = true) :
    (bwdUser ctx ho net L1 st iu).min_slack = st.min_slack := by
  unfold bwdUser
  rw [if_neg hclk]
  exact foldl_pres _ (fun s : BwdState => s.min_slack) _ st
    (fun s2 p _ => bwdPort_ms ctx iu.2 net iu.1 _ _ L1 s2 p)

theorem bwdUserFold_ms_le (ctx : Ctx) (ho : Bool) (net : Nat) (L1 : Int)
    (e : List (Nat × PortRef)) (st : BwdState) :
    (e.foldl (bwdUser ctx ho net L1) st).min_slack ≤ st.min_slack :=
  foldl_mono_le _ (fun s : BwdState => s.min_slack) _ st
    (fun s2 iu _ => bwdUser_ms_le ctx ho net L1 s2 iu)

theorem mem_of_mem_enum {α : Type _} {l : List α} {i : Nat} {a : α}
    (h : (i, a) ∈ l.enum) : a ∈ l :=
  List.mem_iff_getElem?.2 ⟨i, List.mk_mem_enum_iff_getElem?.1 h⟩

theorem terminalSlacks_mem_intro (ctx : Ctx) (r : WPResult) (n : Nat) (usr : PortRef)
    (hn : n ∈ r.order) (hu : usr ∈ usersOf ctx n)
    (hclk : (ctx.portClock usr.cell usr.port).isSome = true) :
    termPathBudget ctx r n usr ∈ terminalSlacks ctx r := by
  unfold terminalSlacks
  refine List.mem_bind.2 ⟨n, hn, ?_⟩
  refine List.mem_filterMap.2 ⟨usr, hu, ?_⟩
  rw [if_pos hclk]

theorem terminalSlacks_mem_elim (ctx : Ctx) (r : WPResult) (s : Int)
    (hs : s ∈ terminalSlacks ctx r) :
    ∃ n ∈ r.order, ∃ usr ∈ usersOf ctx n,
      (ctx.portClock usr.cell usr.port).isSome = true
        ∧ s = termPathBudget ctx r n usr := by
  unfold terminalSlacks at hs
  obtain ⟨n, hn, hs2⟩ := List.mem_bind.1 hs
  obtain ⟨usr, hu, hg⟩ := List.mem_filterMap.1 hs2
  by_cases hclk : (ctx.portClock usr.cell usr.port).isSome = true
  · rw [if_pos hclk] at hg
    exact ⟨n, hn, usr, hu, hclk, (Option.some_inj.1 hg).symm⟩
  · rw [if_neg hclk] at hg
    exact absurd hg (by simp)

/-- After the backward pass, min_slack is bounded by the slack of every
clocked sink of every net in the processed list. -/
theorem backwardPass_ms_le_term (ctx : Ctx) (ho : Bool) (L : List Nat) (st0 : BwdState)
    (n : Nat) (usr : PortRef) (hn : n ∈ L) (hu : usr ∈ usersOf ctx n)
    (hclk : (ctx.portClock usr.cell usr.port).isSome = true) :
    (backwardPass ctx ho L st0).min_slack
      ≤ ctx.clk_period - ((atND st0.net_data n).max_arrival + realizedDelay ctx n usr) := by
  rw [backwardPass_shape]
  obtain ⟨l1, l2, hsplit⟩ := List.append_of_mem (List.mem_reverse.2 hn)
  rw [hsplit, List.foldl_append, List.foldl_cons]
  set s1 := l1.foldl (bwdNet ctx ho) st0 with hs1
  have harr1 : (atND s1.net_data n).max_arrival = (atND st0.net_data n).max_arrival := by
    rw [hs1]
    exact bwdFold_arr ctx ho l1 st0 n
  have hj : ∃ j, (j, usr) ∈ (usersOf ctx n).enum := by
    obtain ⟨idx, hidx⟩ := List.mem_iff_getElem?.1 hu
    exact ⟨idx, List.mk_mem_enum_iff_getElem?.2 hidx⟩
  obtain ⟨j, hj⟩ := hj
  obtain ⟨e1, e2, hesplit⟩ := List.append_of_mem hj
  have hnet : bwdNet ctx ho s1 n
      = e2.foldl (bwdUser ctx ho n (((atND s1.net_data n).max_path_length : Int) + 1))
          (bwdUser ctx ho n (((atND s1.net_data n).max_path_length : Int) + 1)
            (e1.foldl (bwdUser ctx ho n (((atND s1.net_data n).max_path_length : Int) + 1)) s1)
            (j, usr)) := by
    show ((usersOf ctx n).enum).foldl
        (bwdUser ctx ho n (((atND s1.net_data n).max_path_length : Int) + 1)) s1 = _
    rw [hesplit, List.foldl_append, List.foldl_cons]
  rw [hnet]
  set sP := e1.foldl (bwdUser ctx ho n (((atND s1.net_data n).max_path_length : Int) + 1)) s1
    with hsP
  have harrP : (atND sP.net_data n).max_arrival = (atND st0.net_data n).max_arrival := by
    rw [hsP, bwdUserFold_arr ctx ho n _ e1 s1 n]
    exact harr1
  have hbu : bwdUser ctx ho n (((atND s1.net_data n).max_path_length : Int) + 1) sP (j, usr)
      = bwdClocked ctx ho n j (realizedDelay ctx n usr)
          (ctx.budgetOverride n usr).isSome
          (((atND s1.net_data n).max_path_length : Int) + 1) sP := by
    simp only [bwdUser, realizedDelay]
    rw [if_pos hclk]
  rw [hbu]
  refine le_trans (bwdFold_ms_le ctx ho l2 _) (le_trans (bwdUserFold_ms_le ctx ho n _ e2 _) ?_)
  rw [bwdClocked_ms_self, harrP]
  exact min_le_right _ _

/-- After the backward pass, min_slack is either its starting value or the
slack of some clocked sink of some processed net, evaluated at the
(backward-invariant) arrival times of the input state. -/
theorem backwardPass_ms_cases (ctx : Ctx) (ho : Bool) (L : List Nat) (st0 : BwdState) :
    (backwardPass ctx ho L st0).min_slack = st0.min_slack
      ∨ ∃ n ∈ L, ∃ usr ∈ usersOf ctx n,
          (ctx.portClock usr.cell usr.port).isSome = true
            ∧ (backwardPass ctx ho L st0).min_slack
                = ctx.clk_period
                    - ((atND st0.net_data n).max_arrival + realizedDelay ctx n usr) := by
  rw [backwardPass_shape]
  have hmain : ((L.reverse.foldl (bwdNet ctx ho) st0).min_slack = st0.min_slack
      ∨ ∃ n ∈ L, ∃ usr ∈ usersOf ctx n,
          (ctx.portClock usr.cell usr.port).isSome = true
            ∧ (L.reverse.foldl (bwdNet ctx ho) st0).min_slack
                = ctx.clk_period
                    - ((atND st0.net_data n).max_arrival + realizedDelay ctx n usr))
      ∧ ∀ m, (atND (L.reverse.foldl (bwdNet ctx ho) st0).net_data m).max_arrival
          = (atND st0.net_data m).max_arrival := by
    refine foldl_inv _ (fun st : BwdState =>
      (st.min_slack = st0.min_slack
        ∨ ∃ n ∈ L, ∃ usr ∈ usersOf ctx n,
            (ctx.portClock usr.cell usr.port).isSome = true
              ∧ st.min_slack = ctx.clk_period
                  - ((atND st0.net_data n).max_arrival + realizedDelay ctx n usr))
        ∧ ∀ m, (atND st.net_data m).max_arrival = (atND st0.net_data m).max_arrival) _ st0
      (fun s2 n2 hn2 hP => ?_) ⟨Or.inl rfl, fun m => rfl⟩
    beta_reduce at hP ⊢
    have hn2L : n2 ∈ L := List.mem_reverse.1 hn2
    have hshape : bwdNet ctx ho s2 n2 = ((usersOf ctx n2).enum).foldl
        (bwdUser ctx ho n2 (((atND s2.net_data n2).max_path_length : Int) + 1)) s2 := rfl
    rw [hshape]
    refine foldl_inv _ (fun st : BwdState =>
      (st.min_slack = st0.min_slack
        ∨ ∃ n ∈ L, ∃ usr ∈ usersOf ctx n,
            (ctx.portClock usr.cell usr.port).isSome = true
              ∧ st.min_slack = ctx.clk_period
                  - ((atND st0.net_data n).max_arrival + realizedDelay ctx n usr))
        ∧ ∀ m, (atND st.net_data m).max_arrival = (atND st0.net_data m).max_arrival) _ s2
      (fun s3 iu hiu hQ => ?_) hP
    beta_reduce at hQ ⊢
    obtain ⟨i2, usr2⟩ := iu
    constructor
    · by_cases hclk2 : (ctx.portClock usr2.cell usr2.port).isSome = true
      · have hbu : bwdUser ctx ho n2 (((atND s2.net_data n2).max_path_length : Int) + 1)
            s3 (i2, usr2)
            = bwdClocked ctx ho n2 i2 (realizedDelay ctx n2 usr2)
                (ctx.budgetOverride n2 usr2).isSome
                (((atND s2.net_data n2).max_path_length : Int) + 1) s3 := by
          simp only [bwdUser, realizedDelay]
          rw [if_pos hclk2]
        rw [hbu, bwdClocked_ms_self]
        rcases min_choice s3.min_slack
            (ctx.clk_period - ((atND s3.net_data n2).max_arrival + realizedDelay ctx n2 usr2))
          with hmin | hmin
        · rw [hmin]; exact hQ.1
        · right
          refine ⟨n2, hn2L, usr2, mem_of_mem_enum hiu, hclk2, ?_⟩
          rw [hmin, hQ.2 n2]
      · rw [bwdUser_ms_notclocked ctx ho n2 _ s3 (i2, usr2) hclk2]
        exact hQ.1
    · intro m
      rw [bwdUser_arr ctx ho n2 _ s3 (i2, usr2) m]
      exact hQ.2 m
  exact hmain.1

/-- C5: after one full pass, the returned global minimum slack equals the
minimum, over every path-terminating (clocked-sink) connection reachable
in the linear order, of (target period - max_arrival of the driving net -
realized delay): it is a member of that family and a lower bound of it.
The hypothesis demands one terminating connection whose slack does not
exceed the clock period (true for every physical delay model, where
arrivals and delays are nonnegative), since min_slack starts at the
period itself (line 53). -/
theorem c5_min_slack_is_min_over_terminals (ctx : Ctx) (nd u ho : Bool)
    (cp : List PortRef) (h0 : List (Int × Nat)) (b : Budgets)
    (hex : ∃ s ∈ terminalSlacks ctx (walk_paths ctx nd u ho cp h0 b),
      s ≤ ctx.clk_period) :
    (walk_paths ctx nd u ho cp h0 b).min_slack
        ∈ terminalSlacks ctx (walk_paths ctx nd u ho cp h0 b)
      ∧ ∀ s ∈ terminalSlacks ctx (walk_paths ctx nd u ho cp h0 b),
          (walk_paths ctx nd u ho cp h0 b).min_slack ≤ s := by
  obtain ⟨s0, hs0, hs0le⟩ := hex
  have hlow : ∀ s ∈ terminalSlacks ctx (walk_paths ctx nd u ho cp h0 b),
      (walk_paths ctx nd u ho cp h0 b).min_slack ≤ s := by
    intro s hs
    obtain ⟨n, hn, usr, hu, hclk, hsval⟩ :=
      terminalSlacks_mem_elim ctx (walk_paths ctx nd u ho cp h0 b) s hs
    rw [hsval]
    rw [walk_ms_eq]
    have harr : (atND (walk_paths ctx nd u ho cp h0 b).net_data n).max_arrival
        = (atND (forwardPass ctx (linearized ctx).order (seedPass ctx).net_data) n).max_arrival := by
      rw [walk_nd_eq]
      exact backwardPass_arr ctx ho _ _ n
    unfold termPathBudget
    rw [harr]
    exact backwardPass_ms_le_term ctx ho (linearized ctx).order _ n usr
      (by rw [walk_order_eq] at hn; exact hn) hu hclk
  constructor
  · rcases backwardPass_ms_cases ctx ho (linearized ctx).order
        { net_data := forwardPass ctx (linearized ctx).order (seedPass ctx).net_data,
          budgets := b, min_slack := ctx.clk_period, hist := h0 } with hcase | hcase
    · have hms : (walk_paths ctx nd u ho cp h0 b).min_slack = ctx.clk_period := by
        rw [walk_ms_eq, hcase]
      have hle := hlow s0 hs0
      have : (walk_paths ctx nd u ho cp h0 b).min_slack = s0 :=
        le_antisymm (le_trans hle (le_of_eq rfl)) (by rw [hms]; exact hs0le)
      rw [this]
      exact hs0
    · obtain ⟨n, hn, usr, hu, hclk, hval⟩ := hcase
      have hms : (walk_paths ctx nd u ho cp h0 b).min_slack
          = termPathBudget ctx (walk_paths ctx nd u ho cp h0 b) n usr := by
        rw [walk_ms_eq, hval]
        unfold termPathBudget
        rw [walk_nd_eq, backwardPass_arr ctx ho _ _ n]
      rw [hms]
      exact terminalSlacks_mem_intro ctx _ n usr (by rw [walk_order_eq]; exact hn) hu hclk
  · exact hlow

theorem c5_witness :
    (∃ s ∈ terminalSlacks (ctxB 0) (walk_paths (ctxB 0) true false false [] [] (fun _ => 0)),
        s ≤ (ctxB 0).clk_period) ∧
      (walk_paths (ctxB 0) true false false [] [] (fun _ => 0)).min_slack
        ∈ terminalSlacks (ctxB 0) (walk_paths (ctxB 0) true false false [] [] (fun _ => 0)) :=
  ⟨by unfold terminalSlacks termPathBudget realizedDelay; decide,
    (c5_min_slack_is_min_over_terminals (ctxB 0) true false false [] [] (fun _ => 0)
      (by unfold terminalSlacks termPathBudget realizedDelay; decide)).1⟩

/-- C1: the claim says analysis mode (timing_analysis) is read-only with
respect to every Connection budget. It is not: walk_paths writes
usr.budget unconditionally at lines 263 and 281 even though
timing_analysis constructs Timing with update = false. On ctxA (one
register-to-register connection, period 10, arrival 2) a pre-pass budget
of 20 is overwritten to 8 by a pure analysis run. -/
theorem c1_analysis_mode_mutates_budgets :
    (timing_analysis ctxA false false (fun _ => 20)).budgets (0, 0) = 8 ∧
      (8 : Int) ≠ 20 := by decide

/-- C2 counterexample: on ctxCy (a two-inverter combinational loop beside
a register pair) the work-queue empties while the loop ports still have
nonzero in-degree, yet the pass completes without any error: the order is
just [0], net 1 of the cycle is absent although it has a sink, and the
assertion flag is clear. This refutes the claim that the pass aborts with
a structural error rather than silently truncating. -/
theorem c2_cycle_silently_truncated :
    topographical_order ctxCy = [0] ∧ (linearized ctxCy).dead = false ∧
      ¬ (1 ∈ topographical_order ctxCy) ∧ usersOf ctxCy 1 ≠ [] := by decide

/-- C3: the claim says that when slack_redist_iter is 0, budgeting treats
every route delay as zero. The compiled walk_paths fetches
getNetinfoRouteDelay unconditionally (lines 228 and 257); only the dead
recursive formulation consults the net_delays flag (line 63). On the
two-hop design with slack_redist_iter = 0, a route delay of 5 on net 0
yields final budget 1 on the terminal connection, whereas the identical
design with the route delay zeroed yields 3. -/
theorem c3_route_delays_used_despite_no_routing :
    (ctxB 5).slack_redist_iter = 0 ∧
      (assign_budget (ctxB 5) (fun _ => 0)).budgets (1, 0) = 1 ∧
      (assign_budget (ctxB 0) (fun _ => 0)).budgets (1, 0) = 3 := by decide

/-- C4 counterexample: ctxA contains a timing path (a clocked-terminus
connection on net 0, which is in the order), and critical-path capture is
requested (print_path = true), yet the captured path is empty: the
compiled walk_paths never records current_path or crit_path. -/
theorem c4_crit_path_empty_on_design_with_path :
    (∃ n ∈ topographical_order ctxA, ∃ usr ∈ usersOf ctxA n,
        (ctxA.portClock usr.cell usr.port).isSome = true) ∧
      (timing_analysis ctxA false true (fun _ => 20)).crit_path = [] := by decide

/-- C4 amended: in analysis mode the captured critical path is empty for
every design and every flag setting: the iterative walk_paths records no
back-pointers, so timing_analysis always reports that the design contains
no timing paths. -/
theorem c4_amended_crit_path_always_empty (ctx : Ctx) (ph pp : Bool) (b : Budgets) :
    (timing_analysis ctx ph pp b).crit_path = [] := rfl

/-- C7 counterexample: with auto_freq set and slack_redist_iter positive,
assign_budget retunes the target period upward after a negative-slack
pass (ctxAF: arrival 14 against period 10), so an immediate second
invocation assigns a strictly larger budget (0 instead of -4) to the same
connection. This refutes unconditional monotonicity. -/
theorem c7_budget_increases_under_auto_freq :
    (assign_budget ctxAF (fun _ => 0)).budgets (0, 0) = -4 ∧
      (assign_budget (assign_budget ctxAF (fun _ => 0)).ctx
          (assign_budget ctxAF (fun _ => 0)).budgets).budgets (0, 0) = 0 ∧
      ¬ ((0 : Int) ≤ -4) := by decide

/-- C8 counterexample: ctxC8 is acyclic and net 11 is produced
combinationally from net 10, yet the produced order is [11, 10, 11]: the
IO-seeded net 11 occurs (at position 0) before its combinational source
10, because an IO-cell output with a combinational input path is both
seeded as an origin and released again by the work queue. -/
theorem c8_seeded_net_breaks_topo_order :
    Acyclic ctxC8 ∧ combDrives ctxC8 10 11 ∧
      topographical_order ctxC8 = [11, 10, 11] ∧
      ¬ occursBefore (topographical_order ctxC8) 10 11 := by
  unfold Acyclic combDrives occursBefore
  decide

/-- C9: the claim says histogram rendering always uses a nonzero bin
divisor. On the sample multiset of the specification example
(slacks 1,1,2,5,5,5,9 ps) the spread 9 - 1 = 8 is below num_bins = 20, so
bin_size = 8 / 20 = 0 and line 408 divides by zero: rendering is not safe
on this nonempty sample set. -/
theorem c9_histogram_bin_size_zero :
    histBinSize [(1, 2), (2, 1), (5, 3), (9, 1)] = 0 ∧
      ([(1, 2), (2, 1), (5, 3), (9, 1)] : List (Int × Nat)) ≠ [] ∧
      ¬ histRenderSafe [(1, 2), (2, 1), (5, 3), (9, 1)] := by
  unfold histRenderSafe
  decide

/-! ## Linearizer soundness machinery (C8): generic helpers. -/

theorem foldl_eq_foldl_filterMap {α β σ : Type _} (g : α → Option β) (f : σ → β → σ)
    (step : σ → α → σ)
    (hstep : ∀ s a, step s a = match g a with | some b => f s b | none => s) :
    ∀ (l : List α) (s : σ), l.foldl step s = (l.filterMap g).foldl f s := by
  intro l
  induction l with
  | nil => intro s; rfl
  | cons a t ih =>
      intro s
      cases hg : g a with
      | none =>
          rw [List.foldl_cons, List.filterMap_cons_none hg, hstep s a, hg]
          exact ih _
      | some b =>
          rw [List.foldl_cons, List.filterMap_cons_some hg, List.foldl_cons, hstep s a, hg]
          exact ih _

theorem foldl_flatMap_eq {α β σ : Type _} (l : List α) (f : α → List β) (g : σ → β → σ) :
    ∀ s : σ, (l.flatMap f).foldl g s = l.foldl (fun s2 a => (f a).foldl g s2) s := by
  induction l with
  | nil => intro s; rfl
  | cons a t ih =>
      intro s
      rw [List.flatMap_cons, List.foldl_append, List.foldl_cons]
      exact ih _

theorem pairwise_of_nodup_map {α β : Type _} (f : α → β) (l : List α)
    (h : (l.map f).Nodup) : l.Pairwise (fun a b => f a ≠ f b) := by
  induction l with
  | nil => exact List.Pairwise.nil
  | cons a t ih =>
      rw [List.map_cons, List.nodup_cons] at h
      refine List.Pairwise.cons (fun b hb he => h.1 ?_) (ih h.2)
      rw [he]
      exact List.mem_map_of_mem f hb

theorem getD_append_left {l1 l2 : List Nat} {i : Nat} (h : i < l1.length) :
    (l1 ++ l2).getD i 0 = l1.getD i 0 := by
  simp [List.getD_eq_getElem?_getD, List.getElem?_append_left h]

theorem getD_concat_self (l : List Nat) (x : Nat) : (l ++ [x]).getD l.length 0 = x := by
  simp [List.getD_eq_getElem?_getD]

theorem mem_getD_pos {l : List Nat} {x : Nat} (h : x ∈ l) :
    ∃ i, i < l.length ∧ l.getD i 0 = x := by
  obtain ⟨i, hi, hg⟩ := List.mem_iff_getElem.1 h
  exact ⟨i, hi, by simp [List.getD_eq_getElem?_getD, List.getElem?_eq_getElem hi, hg]⟩

theorem getD_mem {l : List Nat} {j : Nat} (h : j < l.length) : l.getD j 0 ∈ l := by
  have he : l.getD j 0 = l[j] := by
    simp [List.getD_eq_getElem?_getD, List.getElem?_eq_getElem h]
  rw [he]
  exact List.getElem_mem h

theorem findCell_mem (ctx : Ctx) (c : Nat) (ci : CellInfo)
    (h : findCell ctx c = some ci) : (c, ci) ∈ ctx.cells := by
  unfold findCell at h
  obtain ⟨en, he, hv⟩ := Option.map_eq_some'.1 h
  have h1 := List.find?_some he
  have h2 := List.mem_of_find?_eq_some he
  have h3 : en.1 = c := of_decide_eq_true (by exact h1)
  subst hv
  rw [← h3]
  exact h2

theorem findCell_of_mem (ctx : Ctx) (c : Nat) (ci : CellInfo)
    (hmem : (c, ci) ∈ ctx.cells) (hnd : (ctx.cells.map Prod.fst).Nodup) :
    findCell ctx c = some ci := by
  cases hf : findCell ctx c with
  | none =>
      unfold findCell at hf
      have h0 := Option.map_eq_none'.1 hf
      have h2 := List.find?_eq_none.1 h0 (c, ci) hmem
      simp at h2
  | some ci2 =>
      have hm := findCell_mem ctx c ci2 hf
      have he : ((c : Nat), ci2) = (c, ci) :=
        List.inj_on_of_nodup_map hnd hm hmem rfl
      exact congrArg (fun x => some x.2) he

theorem port_name_inj (ctx : Ctx) (hwf : WFCtx ctx) (en : Nat × CellInfo)
    (hen : en ∈ ctx.cells) (p q : PortInfo) (hp : p ∈ en.2.ports)
    (hq : q ∈ en.2.ports) (hname : p.name = q.name) : p = q :=
  List.inj_on_of_nodup_map (hwf.2.1 en hen) hp hq hname

theorem net_of_netOfD (q : PortInfo) (h1 : q.net.isSome = true) {n : Nat}
    (h2 : netOfD q = n) : q.net = some n := by
  cases hqo : q.net with
  | none =>
      rw [hqo] at h1
      exact absurd h1 (by simp)
  | some v =>
      unfold netOfD at h2
      rw [hqo] at h2
      simp at h2
      rw [h2]

theorem netOfD_of_net {q : PortInfo} {n : Nat} (h : q.net = some n) : netOfD q = n := by
  unfold netOfD
  rw [h]
  rfl

/-- The unique-driver component of WFCtx in some-value form. -/
theorem wf_driver (ctx : Ctx) (hwf : WFCtx ctx) :
    ∀ e1 ∈ ctx.cells, ∀ p1 ∈ e1.2.ports, ∀ e2 ∈ ctx.cells, ∀ p2 ∈ e2.2.ports,
      p1.type = PortType.pOut → p2.type = PortType.pOut →
      ∀ m, p1.net = some m → p2.net = some m →
        e1.1 = e2.1 ∧ p1.name = p2.name := by
  intro e1 he1 p1 hp1 e2 he2 p2 hp2 ht1 ht2 m hm1 hm2
  exact hwf.2.2.2.2.1 e1 he1 p1 hp1 e2 he2 p2 hp2 ht1 ht2 (by rw [hm1]; rfl)
    (by rw [hm1, hm2])

/-- The bound-input-to-users component of WFCtx in some-value form. -/
theorem wf_user_of_bound (ctx : Ctx) (hwf : WFCtx ctx) :
    ∀ en ∈ ctx.cells, ∀ q ∈ en.2.ports, q.type ≠ PortType.pOut →
      ∀ nid, q.net = some nid → (⟨en.1, q.name⟩ : PortRef) ∈ usersOf ctx nid := by
  intro en hen q hq ht nid hn
  have h := hwf.2.2.2.2.2.2 en hen q hq ht (by rw [hn]; rfl)
  rw [netOfD_of_net hn] at h
  exact h

/-! ## Linearizer soundness (C8): the seeded order. -/

theorem seedOutput_order (ctx : Ctx) (cid : Nat) (is_io : Bool) (ips : List Nat)
    (st : SeedState) (o : PortInfo) :
    (seedOutput ctx cid is_io ips st o).order = st.order ++ seedContrib ctx cid is_io o := by
  unfold seedOutput seedContrib
  split
  · rw [List.append_nil]
  · split
    · rfl
    · rw [foldl_pres _ (fun s : SeedState => s.order) _ _ (fun s2 i _ => by
        beta_reduce
        split <;> rfl)]
      by_cases hio : is_io
      · rw [if_pos hio, if_pos hio]
      · rw [if_neg hio, if_neg hio, List.append_nil]

theorem seedCell_order (ctx : Ctx) (st : SeedState) (en : Nat × CellInfo) :
    (seedCell ctx st en).order = st.order ++ seedNetsOfCell ctx en := by
  have key : ∀ (l : List PortInfo) (s : SeedState),
      (l.foldl (seedOutput ctx en.1 (en.2.type == ctx.id_sb_io)
        ((en.2.ports.filter
          (fun p => p.net.isSome && !(p.type == PortType.pOut))).map (fun p => p.name))) s).order
      = s.order ++ l.flatMap (seedContrib ctx en.1 (en.2.type == ctx.id_sb_io)) := by
    intro l
    induction l with
    | nil => intro s; simp
    | cons a t ih =>
        intro s
        rw [List.foldl_cons, List.flatMap_cons, ih, seedOutput_order, List.append_assoc]
  exact key _ st

theorem seedPass_order (ctx : Ctx) :
    (seedPass ctx).order = ctx.cells.flatMap (seedNetsOfCell ctx) := by
  have key : ∀ (l : List (Nat × CellInfo)) (s : SeedState),
      (l.foldl (seedCell ctx) s).order = s.order ++ l.flatMap (seedNetsOfCell ctx) := by
    intro l
    induction l with
    | nil => intro s; simp
    | cons a t ih =>
        intro s
        rw [List.foldl_cons, List.flatMap_cons, ih, seedCell_order, List.append_assoc]
  rw [show seedPass ctx = ctx.cells.foldl (seedCell ctx)
    { order := [], net_data := fun _ => none, fanin := fun _ => none } from rfl, key]
  rfl

theorem seedContrib_mem (ctx : Ctx) (cid : Nat) (is_io : Bool) (o : PortInfo) (b : Nat) :
    b ∈ seedContrib ctx cid is_io o
      ↔ o.net = some b ∧ ((ctx.portClock cid o.name).isSome = true ∨ is_io = true) := by
  unfold seedContrib
  cases ho : o.net with
  | none => simp
  | some onet =>
      cases hc : ctx.portClock cid o.name with
      | some d => simp [hc, eq_comm]
      | none =>
          by_cases hio : is_io
          · simp [hc, hio, eq_comm]
          · simp [hc, hio]

theorem seedNetsOfCell_mem (ctx : Ctx) (en : Nat × CellInfo) (b : Nat) :
    b ∈ seedNetsOfCell ctx en
      ↔ ∃ p ∈ en.2.ports, p.type = PortType.pOut ∧ p.net = some b
          ∧ ((ctx.portClock en.1 p.name).isSome = true ∨ en.2.type = ctx.id_sb_io) := by
  unfold seedNetsOfCell
  rw [List.mem_flatMap]
  constructor
  · rintro ⟨p, hp, hb⟩
    obtain ⟨hpm, hpc⟩ := List.mem_filter.1 hp
    obtain ⟨hnet, hsd⟩ := (seedContrib_mem ctx en.1 _ p b).1 hb
    refine ⟨p, hpm, ?_, hnet, ?_⟩
    · have h2 := Bool.and_eq_true _ _ ▸ hpc
      exact beq_iff_eq.1 h2.2
    · rcases hsd with h | h
      · exact Or.inl h
      · exact Or.inr (beq_iff_eq.1 h)
  · rintro ⟨p, hpm, hout, hnet, hsd⟩
    refine ⟨p, List.mem_filter.2 ⟨hpm, ?_⟩, (seedContrib_mem ctx en.1 _ p b).2 ⟨hnet, ?_⟩⟩
    · rw [hnet, hout]
      rfl
    · rcases hsd with h | h
      · exact Or.inl h
      · exact Or.inr (beq_iff_eq.2 h)

theorem isSeedNet_iff (ctx : Ctx) (b : Nat) :
    isSeedNet ctx b ↔ b ∈ (seedPass ctx).order := by
  rw [seedPass_order, List.mem_flatMap]
  unfold isSeedNet
  constructor
  · rintro ⟨en, hen, p, hp, hout, hnet, hsd⟩
    exact ⟨en, hen, (seedNetsOfCell_mem ctx en b).2 ⟨p, hp, hout, hnet, hsd⟩⟩
  · rintro ⟨en, hen, hb⟩
    obtain ⟨p, hp, hout, hnet, hsd⟩ := (seedNetsOfCell_mem ctx en b).1 hb
    exact ⟨en, hen, p, hp, hout, hnet, hsd⟩

theorem seedPass_order_nodup (ctx : Ctx) (hwf : WFCtx ctx) :
    (seedPass ctx).order.Nodup := by
  rw [seedPass_order, List.nodup_flatMap]
  constructor
  · intro en hen
    unfold seedNetsOfCell
    rw [List.nodup_flatMap]
    constructor
    · intro p hp
      unfold seedContrib
      split
      · exact List.nodup_nil
      · split
        · exact List.nodup_singleton _
        · split
          · exact List.nodup_singleton _
          · exact List.nodup_nil
    · have hnd2 : ((en.2.ports.filter
          (fun p => p.net.isSome && (p.type == PortType.pOut))).map PortInfo.name).Nodup :=
        ((List.filter_sublist _).map PortInfo.name).nodup (hwf.2.1 en hen)
      have hpw := pairwise_of_nodup_map PortInfo.name _ hnd2
      refine hpw.imp_of_mem ?_
      intro p1 p2 hm1 hm2 hne b hb1 hb2
      obtain ⟨hpm1, hpc1⟩ := List.mem_filter.1 hm1
      obtain ⟨hpm2, hpc2⟩ := List.mem_filter.1 hm2
      obtain ⟨hn1, _⟩ := (seedContrib_mem ctx en.1 _ p1 b).1 hb1
      obtain ⟨hn2, _⟩ := (seedContrib_mem ctx en.1 _ p2 b).1 hb2
      have ht1 : p1.type = PortType.pOut := beq_iff_eq.1 (Bool.and_eq_true _ _ ▸ hpc1).2
      have ht2 : p2.type = PortType.pOut := beq_iff_eq.1 (Bool.and_eq_true _ _ ▸ hpc2).2
      exact hne (wf_driver ctx hwf en hen p1 hpm1 en hen p2 hpm2 ht1 ht2 b hn1 hn2).2
  · have hpw := pairwise_of_nodup_map Prod.fst _ hwf.1
    refine hpw.imp_of_mem ?_
    intro e1 e2 hm1 hm2 hne b hb1 hb2
    obtain ⟨p1, hp1, ht1, hn1, _⟩ := (seedNetsOfCell_mem ctx e1 b).1 hb1
    obtain ⟨p2, hp2, ht2, hn2, _⟩ := (seedNetsOfCell_mem ctx e2 b).1 hb2
    exact hne (wf_driver ctx hwf e1 hm1 p1 hp1 e2 hm2 p2 hp2 ht1 ht2 b hn1 hn2).1

/-! ## Linearizer soundness (C8): the seeded in-degrees. -/

theorem bumpFold_fanin (ctx : Ctx) (cid o : Nat) (step : SeedState → Nat → SeedState)
    (hstep : ∀ s i, step s i = match ctx.cellDelay cid i o with
      | some _ => { s with fanin := bumpFanin s.fanin (cid, o) }
      | none => s) :
    ∀ (ips : List Nat) (st : SeedState) (k : Nat × Nat),
      (ips.foldl step st).fanin k
        = if k = (cid, o) ∧ ips.filter (fun i => (ctx.cellDelay cid i o).isSome) ≠ []
          then some ((st.fanin k).getD 0
            + (ips.filter (fun i => (ctx.cellDelay cid i o).isSome)).length)
          else st.fanin k := by
  intro ips
  induction ips with
  | nil =>
      intro st k
      simp
  | cons a t ih =>
      intro st k
      rw [List.foldl_cons, hstep st a]
      cases hd : ctx.cellDelay cid a o with
      | none =>
          have hfilt : (a :: t).filter (fun i => (ctx.cellDelay cid i o).isSome)
              = t.filter (fun i => (ctx.cellDelay cid i o).isSome) := by
            rw [List.filter_cons_of_neg]
            simp [hd]
          rw [hfilt]
          exact ih st k
      | some d =>
          have hfilt : (a :: t).filter (fun i => (ctx.cellDelay cid i o).isSome)
              = a :: t.filter (fun i => (ctx.cellDelay cid i o).isSome) := by
            rw [List.filter_cons_of_pos]
            simp [hd]
          rw [hfilt, ih _ k]
          by_cases hk : k = (cid, o)
          · subst hk
            have hbump : bumpFanin st.fanin (cid, o) (cid, o)
                = some ((st.fanin (cid, o)).getD 0 + 1) := by
              simp [bumpFanin]
            by_cases ht : t.filter (fun i => (ctx.cellDelay cid i o).isSome) = []
            · rw [if_neg (by simp [ht]), if_pos (by simp), ht]
              simp [hbump]
            · rw [if_pos ⟨rfl, ht⟩, if_pos ⟨rfl, by simp⟩]
              simp [hbump]
              omega
          · rw [if_neg (by simp [hk]), if_neg (by simp [hk])]
            simp [bumpFanin, hk]

theorem seedOutput_fanin_frame (ctx : Ctx) (cid : Nat) (is_io : Bool) (ips : List Nat)
    (st : SeedState) (o : PortInfo) (k : Nat × Nat) (hk : k ≠ (cid, o.name)) :
    (seedOutput ctx cid is_io ips st o).fanin k = st.fanin k := by
  unfold seedOutput
  split
  · rfl
  · split
    · rfl
    · rw [bumpFold_fanin ctx cid o.name _
        (fun s i => by cases ctx.cellDelay cid i o.name <;> rfl) ips _ k,
        if_neg (fun h => hk h.1)]
      by_cases hio : is_io <;> simp [hio]

theorem seedOutput_fanin_self (ctx : Ctx) (cid : Nat) (is_io : Bool) (ips : List Nat)
    (st : SeedState) (o : PortInfo) (hnet : o.net.isSome = true)
    (hclk : ctx.portClock cid o.name = none) :
    (seedOutput ctx cid is_io ips st o).fanin (cid, o.name)
      = if ips.filter (fun i => (ctx.cellDelay cid i o.name).isSome) = []
        then st.fanin (cid, o.name)
        else some ((st.fanin (cid, o.name)).getD 0
          + (ips.filter (fun i => (ctx.cellDelay cid i o.name).isSome)).length) := by
  unfold seedOutput
  cases ho : o.net with
  | none =>
      rw [ho] at hnet
      exact absurd hnet (by simp)
  | some onet =>
      simp only [hclk]
      rw [bumpFold_fanin ctx cid o.name _
        (fun s i => by cases ctx.cellDelay cid i o.name <;> rfl) ips _ _]
      by_cases hf : ips.filter (fun i => (ctx.cellDelay cid i o.name).isSome) = []
      · rw [if_neg (by simp [hf]), if_pos hf]
        by_cases hio : is_io <;> simp [hio]
      · rw [if_pos ⟨rfl, hf⟩, if_neg hf]
        by_cases hio : is_io <;> simp [hio]

theorem foldl_fanin_frame (ctx : Ctx) (cid : Nat) (is_io : Bool) (ips : List Nat)
    (l : List PortInfo) (k : Nat × Nat) (h : ∀ o ∈ l, k ≠ (cid, o.name)) :
    ∀ st : SeedState, (l.foldl (seedOutput ctx cid is_io ips) st).fanin k = st.fanin k := by
  induction l with
  | nil => intro st; rfl
  | cons a t ih =>
      intro st
      rw [List.foldl_cons, ih (fun o ho => h o (List.mem_cons_of_mem _ ho)),
        seedOutput_fanin_frame ctx cid is_io ips st a k (h a (List.mem_cons_self _ _))]

theorem filter_ips_counted (ctx : Ctx) (en : Nat × CellInfo) (oname : Nat) :
    ((en.2.ports.filter
        (fun p => p.net.isSome && !(p.type == PortType.pOut))).map (fun p => p.name)).filter
      (fun i => (ctx.cellDelay en.1 i oname).isSome)
    = (countedInputs ctx en.1 en.2 oname).map (fun p => p.name) := by
  unfold countedInputs
  rw [List.filter_map]
  rfl

theorem seedCell_fanin_self (ctx : Ctx) (st : SeedState) (en : Nat × CellInfo)
    (hnd : (en.2.ports.map PortInfo.name).Nodup)
    (p : PortInfo) (hp : p ∈ en.2.ports) (htype : p.type = PortType.pOut)
    (hnet : p.net.isSome = true) (hclk : ctx.portClock en.1 p.name = none) :
    (seedCell ctx st en).fanin (en.1, p.name)
      = if countedInputs ctx en.1 en.2 p.name = [] then st.fanin (en.1, p.name)
        else some ((st.fanin (en.1, p.name)).getD 0
          + (countedInputs ctx en.1 en.2 p.name).length) := by
  unfold seedCell
  have hpf : p ∈ en.2.ports.filter (fun q => q.net.isSome && (q.type == PortType.pOut)) :=
    List.mem_filter.2 ⟨hp, by rw [hnet, htype]; rfl⟩
  obtain ⟨l1, l2, hsplit⟩ := List.append_of_mem hpf
  have hnd2 : ((l1 ++ p :: l2).map PortInfo.name).Nodup := by
    rw [← hsplit]
    exact ((List.filter_sublist _).map PortInfo.name).nodup hnd
  rw [List.map_append, List.map_cons, List.nodup_middle, List.nodup_cons,
    List.mem_append] at hnd2
  rw [hsplit, List.foldl_append, List.foldl_cons,
    foldl_fanin_frame ctx en.1 _ _ l2 _ (fun o ho he => hnd2.1 (Or.inr (by
      rw [show p.name = o.name from congrArg Prod.snd he]
      exact List.mem_map_of_mem PortInfo.name ho))),
    seedOutput_fanin_self ctx en.1 _ _ _ p hnet hclk, filter_ips_counted ctx en p.name,
    foldl_fanin_frame ctx en.1 _ _ l1 _ (fun o ho he => hnd2.1 (Or.inl (by
      rw [show p.name = o.name from congrArg Prod.snd he]
      exact List.mem_map_of_mem PortInfo.name ho)))]
  simp

theorem seedCell_fanin_frame (ctx : Ctx) (st : SeedState) (en : Nat × CellInfo)
    (k : Nat × Nat) (hk : k.1 ≠ en.1) :
    (seedCell ctx st en).fanin k = st.fanin k := by
  unfold seedCell
  exact foldl_fanin_frame ctx en.1 _ _ _ k
    (fun o ho he => hk (congrArg Prod.fst he)) st

theorem seedPass_fanin (ctx : Ctx) (hw1 : (ctx.cells.map Prod.fst).Nodup)
    (en : Nat × CellInfo) (hen : en ∈ ctx.cells)
    (hnd : (en.2.ports.map PortInfo.name).Nodup)
    (p : PortInfo) (hp : p ∈ en.2.ports) (htype : p.type = PortType.pOut)
    (hnet : p.net.isSome = true) (hclk : ctx.portClock en.1 p.name = none) :
    (seedPass ctx).fanin (en.1, p.name)
      = if countedInputs ctx en.1 en.2 p.name = [] then none
        else some (countedInputs ctx en.1 en.2 p.name).length := by
  obtain ⟨l1, l2, hsplit⟩ := List.append_of_mem hen
  have h2 : ((l1 ++ en :: l2).map Prod.fst).Nodup := by
    rw [← hsplit]
    exact hw1
  rw [List.map_append, List.map_cons, List.nodup_middle, List.nodup_cons,
    List.mem_append] at h2
  have cellFrame : ∀ (l : List (Nat × CellInfo)), en.1 ∉ l.map Prod.fst →
      ∀ st : SeedState,
        (l.foldl (seedCell ctx) st).fanin (en.1, p.name) = st.fanin (en.1, p.name) := by
    intro l
    induction l with
    | nil => intro _ st; rfl
    | cons a t ih =>
        intro hni st
        rw [List.map_cons] at hni
        rw [List.foldl_cons, ih (fun h => hni (List.mem_cons_of_mem _ h)),
          seedCell_fanin_frame ctx st a _ (fun h => hni (by
            rw [List.mem_cons]
            exact Or.inl h))]
  rw [show seedPass ctx = ctx.cells.foldl (seedCell ctx)
      { order := [], net_data := fun _ => none, fanin := fun _ => none } from rfl,
    hsplit, List.foldl_append, List.foldl_cons,
    cellFrame l2 (fun h => h2.1 (Or.inr h)),
    seedCell_fanin_self ctx _ en hnd p hp htype hnet hclk,
    cellFrame l1 (fun h => h2.1 (Or.inl h))]
  split
  · rfl
  · simp

/-! ## Linearizer soundness (C8): flattening the work-queue walk into
decrement events. -/

theorem filterMap_guard {α β : Type _} (c : α → Bool) (h : α → β) :
    ∀ l : List α,
      l.filterMap (fun a => if c a then some (h a) else none) = (l.filter c).map h := by
  intro l
  induction l with
  | nil => rfl
  | cons a t ih =>
      by_cases hc : c a = true
      · simp [List.filterMap_cons, List.filter_cons, hc, ih]
      · simp [List.filterMap_cons, List.filter_cons, hc, ih]

theorem foldl_ext2 {α σ : Type _} (f g : σ → α → σ) (h : ∀ s a, f s a = g s a) :
    ∀ (l : List α) (s : σ), l.foldl f s = l.foldl g s := by
  intro l
  induction l with
  | nil => intro s; rfl
  | cons a t ih =>
      intro s
      rw [List.foldl_cons, List.foldl_cons, h s a]
      exact ih _

theorem kahnUser_events (ctx : Ctx) (st : KState) (usr : PortRef) :
    kahnUser ctx st usr = (userEvents ctx usr).foldl decStep st := by
  unfold kahnUser userEvents
  by_cases hc : (ctx.portClock usr.cell usr.port).isSome = true
  · rw [if_pos hc, if_pos hc]
    rfl
  · rw [if_neg hc, if_neg hc, ← filterMap_guard]
    refine foldl_eq_foldl_filterMap _ decStep (kahnPort ctx usr) ?_ _ st
    intro s p
    unfold kahnPort decStep netOfD
    rcases p with ⟨pn, pt, pnet⟩
    cases pt
    · simp
    · cases pnet with
      | none => simp
      | some m =>
          cases hd : ctx.cellDelay usr.cell usr.port pn with
          | none => simp [hd]
          | some d => simp [hd]

theorem usersFold_events (ctx : Ctx) (n : Nat) (st : KState) :
    (usersOf ctx n).foldl (kahnUser ctx) st = (decEvents ctx n).foldl decStep st := by
  unfold decEvents
  rw [foldl_flatMap_eq]
  exact foldl_ext2 _ _ (fun s u => kahnUser_events ctx s u) _ st

theorem userEvents_mem (ctx : Ctx) (u : PortRef) (ev : PortRef × PortInfo)
    (h : ev ∈ userEvents ctx u) :
    (ctx.portClock u.cell u.port).isSome = false
      ∧ ev.1 = u ∧ ev.2 ∈ portsOf ctx u.cell ∧ ev.2.type = PortType.pOut
      ∧ ev.2.net.isSome = true
      ∧ (ctx.cellDelay u.cell u.port ev.2.name).isSome = true := by
  unfold userEvents at h
  by_cases hc : (ctx.portClock u.cell u.port).isSome = true
  · rw [if_pos hc] at h
    exact absurd h (List.not_mem_nil ev)
  · rw [if_neg hc] at h
    obtain ⟨p, hp, he⟩ := List.mem_map.1 h
    obtain ⟨hpm, hcond⟩ := List.mem_filter.1 hp
    simp at hcond
    subst he
    exact ⟨Bool.not_eq_true _ ▸ hc, rfl, hpm, hcond.1.1, hcond.1.2, hcond.2⟩

theorem userEvents_mem_intro (ctx : Ctx) (u : PortRef) (p : PortInfo)
    (hc : (ctx.portClock u.cell u.port).isSome = false)
    (hp : p ∈ portsOf ctx u.cell) (ht : p.type = PortType.pOut)
    (hn : p.net.isSome = true)
    (hd : (ctx.cellDelay u.cell u.port p.name).isSome = true) :
    (u, p) ∈ userEvents ctx u := by
  unfold userEvents
  rw [if_neg (by simp [hc])]
  exact List.mem_map_of_mem _ (List.mem_filter.2 ⟨hp, by simp [ht, hn, hd]⟩)

theorem decEvents_mem_elim (ctx : Ctx) (n : Nat) (ev : PortRef × PortInfo)
    (h : ev ∈ decEvents ctx n) :
    ev.1 ∈ usersOf ctx n
      ∧ (ctx.portClock ev.1.cell ev.1.port).isSome = false
      ∧ ev.2 ∈ portsOf ctx ev.1.cell ∧ ev.2.type = PortType.pOut
      ∧ ev.2.net.isSome = true
      ∧ (ctx.cellDelay ev.1.cell ev.1.port ev.2.name).isSome = true := by
  unfold decEvents at h
  obtain ⟨u, hu, he⟩ := List.mem_flatMap.1 h
  obtain ⟨h1, h2, h3, h4, h5, h6⟩ := userEvents_mem ctx u ev he
  subst h2
  exact ⟨hu, h1, h3, h4, h5, h6⟩

theorem decEvents_mem_intro (ctx : Ctx) (n : Nat) (u : PortRef) (p : PortInfo)
    (hu : u ∈ usersOf ctx n)
    (hc : (ctx.portClock u.cell u.port).isSome = false)
    (hp : p ∈ portsOf ctx u.cell) (ht : p.type = PortType.pOut)
    (hn : p.net.isSome = true)
    (hd : (ctx.cellDelay u.cell u.port p.name).isSome = true) :
    (u, p) ∈ decEvents ctx n := by
  unfold decEvents
  exact List.mem_flatMap.2 ⟨u, hu, userEvents_mem_intro ctx u p hc hp ht hn hd⟩

theorem usersOf_nodup (ctx : Ctx)
    (hnd : (ctx.nets.flatMap (fun en => en.2.users)).Nodup) (n : Nat) :
    (usersOf ctx n).Nodup := by
  unfold usersOf
  cases hf : findNet ctx n with
  | none => exact List.nodup_nil
  | some ni =>
      obtain ⟨l1, l2, hsplit⟩ := List.append_of_mem (findNet_mem ctx n ni hf)
      have hsub : List.Sublist ni.users (ctx.nets.flatMap (fun en => en.2.users)) := by
        rw [hsplit, List.flatMap_append, List.flatMap_cons]
        exact (List.sublist_append_left _ _).trans (List.sublist_append_right _ _)
      exact hsub.nodup hnd

theorem portsOf_nodup (ctx : Ctx)
    (hw2 : ∀ en ∈ ctx.cells, (en.2.ports.map PortInfo.name).Nodup) (c : Nat) :
    (portsOf ctx c).Nodup := by
  unfold portsOf
  cases hfc : findCell ctx c with
  | none => exact List.nodup_nil
  | some ci => exact (hw2 (c, ci) (findCell_mem ctx c ci hfc)).of_map

theorem decEvents_nodup (ctx : Ctx) (hwf : WFCtx ctx) (n : Nat) :
    (decEvents ctx n).Nodup := by
  unfold decEvents
  rw [List.nodup_flatMap]
  constructor
  · intro u hu
    unfold userEvents
    by_cases hc : (ctx.portClock u.cell u.port).isSome = true
    · rw [if_pos hc]
      exact List.nodup_nil
    · rw [if_neg hc]
      exact List.Nodup.map (fun p q h => congrArg Prod.snd h)
        ((portsOf_nodup ctx hwf.2.1 u.cell).filter _)
  · refine List.Pairwise.imp ?_ (usersOf_nodup ctx hwf.2.2.2.1 n)
    intro u1 u2 hne ev h1 h2
    exact hne (((userEvents_mem ctx u1 ev h1).2.1).symm.trans
      ((userEvents_mem ctx u2 ev h2).2.1))

/-! ## Linearizer soundness (C8): pending-input bookkeeping. -/

theorem portRef_ext (r s : PortRef) (h1 : r.cell = s.cell) (h2 : r.port = s.port) :
    r = s := by
  cases r
  cases s
  cases h1
  cases h2
  rfl

theorem usersOf_mem_elim (ctx : Ctx) (n : Nat) (u : PortRef) (hu : u ∈ usersOf ctx n) :
    ∃ ni, findNet ctx n = some ni ∧ (n, ni) ∈ ctx.nets ∧ u ∈ ni.users := by
  unfold usersOf at hu
  cases hf : findNet ctx n with
  | none =>
      rw [hf] at hu
      exact absurd hu (List.not_mem_nil u)
  | some ni =>
      rw [hf] at hu
      exact ⟨ni, rfl, findNet_mem ctx n ni hf, hu⟩

theorem pendInputs_nil (ctx : Ctx) (cid : Nat) (ci : CellInfo) (o : Nat) :
    pendInputs ctx cid ci o [] = countedInputs ctx cid ci o := by
  unfold pendInputs
  refine List.filter_eq_self.2 ?_
  intro q hq
  simp

theorem pendE_nil (ctx : Ctx) (cid : Nat) (ci : CellInfo) (o : Nat) (rho : List Nat) :
    pendE ctx cid ci o rho [] = pendInputs ctx cid ci o rho := by
  unfold pendE pendInputs
  refine List.filter_congr ?_
  intro q hq
  simp

theorem countedInputs_mem (ctx : Ctx) (cid : Nat) (ci : CellInfo) (o : Nat) (q : PortInfo) :
    q ∈ countedInputs ctx cid ci o
      ↔ q ∈ ci.ports ∧ q.net.isSome = true ∧ q.type ≠ PortType.pOut
        ∧ (ctx.cellDelay cid q.name o).isSome = true := by
  unfold countedInputs
  rw [List.mem_filter, List.mem_filter]
  constructor
  · rintro ⟨⟨h1, h2⟩, h3⟩
    simp at h2
    exact ⟨h1, h2.1, h2.2, h3⟩
  · rintro ⟨h1, h2, h3, h4⟩
    exact ⟨⟨h1, by simp [h2, h3]⟩, h4⟩

theorem countedInputs_nodup (ctx : Ctx) (cid : Nat) (ci : CellInfo) (o : Nat)
    (hnd : (ci.ports.map PortInfo.name).Nodup) :
    (countedInputs ctx cid ci o).Nodup :=
  List.Nodup.filter _ (List.Nodup.filter _ (List.Nodup.of_map PortInfo.name hnd))

theorem pendE_nodup (ctx : Ctx) (cid : Nat) (ci : CellInfo) (o : Nat) (rho : List Nat)
    (edone : List (PortRef × PortInfo)) (hnd : (ci.ports.map PortInfo.name).Nodup) :
    (pendE ctx cid ci o rho edone).Nodup :=
  (countedInputs_nodup ctx cid ci o hnd).filter _

theorem filter_eq_erase {α : Type _} [DecidableEq α] :
    ∀ (l : List α), l.Nodup → ∀ a ∈ l, ∀ pred : α → Bool,
      (∀ b ∈ l, (pred b = false ↔ b = a)) → l.filter pred = l.erase a := by
  intro l
  induction l with
  | nil =>
      intro _ a ha
      exact absurd ha (List.not_mem_nil a)
  | cons b t ih =>
      intro hnd a ha pred hiff
      rw [List.nodup_cons] at hnd
      by_cases hba : b = a
      · subst hba
        rw [List.filter_cons_of_neg (by simp [(hiff b (List.mem_cons_self b t)).2 rfl]),
          List.erase_cons_head]
        refine List.filter_eq_self.2 ?_
        intro c hc
        by_contra hcf
        have hcfalse : pred c = false := by
          revert hcf
          cases pred c <;> simp
        exact hnd.1 (((hiff c (List.mem_cons_of_mem b hc)).1 hcfalse) ▸ hc)
      · have hpb : pred b = true := by
          cases hpb0 : pred b
          · exact absurd ((hiff b (List.mem_cons_self b t)).1 hpb0) hba
          · rfl
        have hat : a ∈ t := List.mem_of_ne_of_mem (fun h => hba h.symm) ha
        rw [List.filter_cons_of_pos hpb, List.erase_cons_tail (by simp [hba]),
          ih hnd.2 a hat pred (fun c hc => hiff c (List.mem_cons_of_mem b hc))]

theorem evented_net (ctx : Ctx) (hwf : WFCtx ctx) (n : Nat) (ev : PortRef × PortInfo)
    (hev : ev ∈ decEvents ctx n) (ci : CellInfo)
    (hfc : findCell ctx ev.1.cell = some ci)
    (q : PortInfo) (hq : q ∈ ci.ports) (hport : ev.1.port = q.name) :
    q.net = some n := by
  obtain ⟨hu, _, _, _, _, _⟩ := decEvents_mem_elim ctx n ev hev
  obtain ⟨ni, hfn, hm, hum⟩ := usersOf_mem_elim ctx n ev.1 hu
  obtain ⟨q2, hq2, hq2n, hq2t, hq2net⟩ := hwf.2.2.1 (n, ni) hm ev.1 hum
  rw [show portsOf ctx ev.1.cell = ci.ports from by unfold portsOf; rw [hfc]] at hq2
  have hqq : q2 = q :=
    List.inj_on_of_nodup_map
      (hwf.2.1 (ev.1.cell, ci) (findCell_mem ctx ev.1.cell ci hfc)) hq2 hq
      (hq2n.trans hport)
  rw [← hqq]
  exact hq2net

theorem contains_append_single (rho : List Nat) (x n : Nat) :
    (rho ++ [n]).contains x = (rho.contains x || decide (x = n)) := by
  induction rho with
  | nil => simp
  | cons a t ih => simp [List.contains_cons, ih, Bool.or_assoc]

theorem pendE_snoc_other (ctx : Ctx) (cid : Nat) (ci : CellInfo) (o : Nat)
    (rho : List Nat) (edone : List (PortRef × PortInfo)) (ev : PortRef × PortInfo)
    (hne : ev.1.cell ≠ cid ∨ ev.2.name ≠ o) :
    pendE ctx cid ci o rho (edone ++ [ev]) = pendE ctx cid ci o rho edone := by
  unfold pendE
  refine List.filter_congr ?_
  intro q hq
  have hm : (ev.1.cell == cid && ev.1.port == q.name && ev.2.name == o) = false := by
    rcases hne with h | h
    · simp [h]
    · simp [h]
  rw [List.any_append]
  simp [List.any_cons, List.any_nil, hm]

theorem pendE_snoc_self (ctx : Ctx) (cid : Nat) (ci : CellInfo) (o : Nat)
    (rho : List Nat) (edone : List (PortRef × PortInfo)) (ev : PortRef × PortInfo)
    (hc : ev.1.cell = cid) (ho : ev.2.name = o) :
    pendE ctx cid ci o rho (edone ++ [ev])
      = (pendE ctx cid ci o rho edone).filter
          (fun q => !((ctx.portClock cid q.name).isNone && (ev.1.port == q.name))) := by
  unfold pendE
  rw [List.filter_filter]
  refine List.filter_congr ?_
  intro q hq
  rw [List.any_append]
  cases h1 : (ctx.portClock cid q.name).isNone <;>
    cases h2 : rho.contains (netOfD q) <;>
      cases h3 : edone.any (fun e => e.1.cell == cid && e.1.port == q.name && e.2.name == o) <;>
        cases h4 : (ev.1.port == q.name) <;>
          simp [List.any_cons, List.any_nil, hc, ho, h4]

theorem pendE_full (ctx : Ctx) (hwf : WFCtx ctx) (n : Nat) (rho : List Nat)
    (cid : Nat) (ci : CellInfo) (hfc : findCell ctx cid = some ci)
    (p : PortInfo) (hp : p ∈ ci.ports) (htype : p.type = PortType.pOut)
    (hnetp : p.net.isSome = true) :
    pendE ctx cid ci p.name rho (decEvents ctx n)
      = pendInputs ctx cid ci p.name (rho ++ [n]) := by
  unfold pendE pendInputs
  refine List.filter_congr ?_
  intro q hq
  obtain ⟨hqports, hqnet, hqtype, hqdel⟩ := (countedInputs_mem ctx cid ci p.name q).1 hq
  by_cases hisN : (ctx.portClock cid q.name).isNone = true
  · have key : (decEvents ctx n).any
        (fun ev => ev.1.cell == cid && ev.1.port == q.name && ev.2.name == p.name)
        = decide (netOfD q = n) := by
      cases ha : (decEvents ctx n).any
          (fun ev => ev.1.cell == cid && ev.1.port == q.name && ev.2.name == p.name) with
      | false =>
          by_cases hqn : netOfD q = n
          · exfalso
            have hqsome : q.net = some n := net_of_netOfD q hqnet hqn
            have hu : (⟨cid, q.name⟩ : PortRef) ∈ usersOf ctx n :=
              wf_user_of_bound ctx hwf (cid, ci) (findCell_mem ctx cid ci hfc) q hqports hqtype
                n hqsome
            have hev2 : ((⟨cid, q.name⟩ : PortRef), p) ∈ decEvents ctx n :=
              decEvents_mem_intro ctx n _ p hu
                (by
                  show (ctx.portClock cid q.name).isSome = false
                  cases hh : ctx.portClock cid q.name with
                  | none => rfl
                  | some d =>
                      rw [hh] at hisN
                      exact absurd hisN (by simp))
                (by
                  show p ∈ portsOf ctx cid
                  unfold portsOf
                  rw [hfc]
                  exact hp) htype hnetp hqdel
            have hpred : (cid == cid && q.name == q.name && p.name == p.name) = true := by
              simp
            have htrue : ((decEvents ctx n).any
                (fun ev => ev.1.cell == cid && ev.1.port == q.name
                  && ev.2.name == p.name)) = true :=
              List.any_eq_true.2 ⟨((⟨cid, q.name⟩ : PortRef), p), hev2, hpred⟩
            rw [ha] at htrue
            exact absurd htrue (by simp)
          · exact (decide_eq_false hqn).symm
      | true =>
          obtain ⟨ev, hev2, hm⟩ := List.any_eq_true.1 ha
          simp at hm
          have hqsome : q.net = some n := by
            refine evented_net ctx hwf n ev hev2 ci ?_ q hqports ?_
            · rw [hm.1.1]
              exact hfc
            · exact hm.1.2
          rw [netOfD_of_net hqsome]
          simp
    rw [hisN, key, contains_append_single]
  · have h0 : (ctx.portClock cid q.name).isNone = false := by
      revert hisN
      cases (ctx.portClock cid q.name).isNone <;> simp
    rw [h0]
    rfl

theorem pendE_sub_counted (ctx : Ctx) (cid : Nat) (ci : CellInfo) (o : Nat)
    (rho : List Nat) (edone : List (PortRef × PortInfo)) (b : PortInfo)
    (hb : b ∈ pendE ctx cid ci o rho edone) : b ∈ countedInputs ctx cid ci o := by
  unfold pendE at hb
  exact List.mem_of_mem_filter hb

/-! ## Linearizer soundness (C8): one decrement event preserves the
invariant. -/

theorem decStep_preserves (ctx : Ctx) (hwf : WFCtx ctx) (n : Nat) (rho : List Nat)
    (hnrho : n ∉ rho)
    (edone : List (PortRef × PortInfo)) (ev : PortRef × PortInfo)
    (rest : List (PortRef × PortInfo))
    (hsplit : decEvents ctx n = edone ++ ev :: rest)
    (s : KState) (hinv : KInvMid ctx rho n edone s) :
    KInvMid ctx rho n (edone ++ [ev]) (decStep s ev) := by
  obtain ⟨hdead, hnd, hoinv, hoq, hkey⟩ := hinv
  have hlen0 : s.order.length = rho.length + 1 + s.queue.length := by
    rw [hoq]
    simp
    omega
  have hevmem : ev ∈ decEvents ctx n := by
    rw [hsplit]
    exact List.mem_append_right _ (List.mem_cons_self _ _)
  have hevnotdone : ev ∉ edone := by
    have hnode : (edone ++ ev :: rest).Nodup := by
      rw [← hsplit]
      exact decEvents_nodup ctx hwf n
    rw [List.nodup_middle, List.nodup_cons] at hnode
    exact fun h => hnode.1 (List.mem_append_left _ h)
  obtain ⟨hu, huc, hp0, ht, hnet, hd⟩ := decEvents_mem_elim ctx n ev hevmem
  have hci : ∃ ci, findCell ctx ev.1.cell = some ci ∧ ev.2 ∈ ci.ports := by
    revert hp0
    unfold portsOf
    cases hfc : findCell ctx ev.1.cell with
    | none =>
        intro h
        exact absurd h (List.not_mem_nil _)
    | some ci =>
        intro h
        exact ⟨ci, rfl, h⟩
  obtain ⟨ci, hfc, hpci⟩ := hci
  have hen : (ev.1.cell, ci) ∈ ctx.cells := findCell_mem ctx ev.1.cell ci hfc
  have hndports : (ci.ports.map PortInfo.name).Nodup := hwf.2.1 (ev.1.cell, ci) hen
  obtain ⟨ni, hfn, hnm, hum⟩ := usersOf_mem_elim ctx n ev.1 hu
  obtain ⟨q2, hq2, hq2n, hq2t, hq2net⟩ := hwf.2.2.1 (n, ni) hnm ev.1 hum
  rw [show portsOf ctx ev.1.cell = ci.ports from by unfold portsOf; rw [hfc]] at hq2
  have hq2some : q2.net.isSome = true := by
    rw [hq2net]
    rfl
  have hnoseedkey : (ctx.portClock ev.1.cell ev.2.name).isSome = false
      ∧ ci.type ≠ ctx.id_sb_io := by
    constructor
    · cases hsk : (ctx.portClock ev.1.cell ev.2.name).isSome with
      | false => rfl
      | true =>
          have hzero := hwf.2.2.2.2.2.1 (ev.1.cell, ci) hen ev.2 hpci ht hnet
            (Or.inl hsk) q2 hq2 hq2t hq2some
          rw [hq2n] at hzero
          rw [hzero] at hd
          exact absurd hd (by simp)
    · intro hio
      have hzero := hwf.2.2.2.2.2.1 (ev.1.cell, ci) hen ev.2 hpci ht hnet
        (Or.inr hio) q2 hq2 hq2t hq2some
      rw [hq2n] at hzero
      rw [hzero] at hd
      exact absurd hd (by simp)
  have hq2cnt : q2 ∈ countedInputs ctx ev.1.cell ci ev.2.name :=
    (countedInputs_mem _ _ _ _ _).2 ⟨hq2, hq2some, hq2t, by rw [hq2n]; exact hd⟩
  have hq2isN : (ctx.portClock ev.1.cell q2.name).isNone = true := by
    rw [hq2n]
    cases hh : ctx.portClock ev.1.cell ev.1.port with
    | none => rfl
    | some d =>
        rw [hh] at huc
        exact absurd huc (by simp)
  have hcontn : rho.contains n = false := by
    cases hcc : rho.contains n with
    | false => rfl
    | true => exact absurd (List.mem_of_elem_eq_true hcc) hnrho
  have hq2pend : q2 ∈ pendE ctx ev.1.cell ci ev.2.name rho edone := by
    unfold pendE
    refine List.mem_filter.2 ⟨hq2cnt, ?_⟩
    beta_reduce
    have hany : edone.any (fun e => e.1.cell == ev.1.cell && e.1.port == q2.name
        && e.2.name == ev.2.name) = false := by
      cases haa : edone.any (fun e => e.1.cell == ev.1.cell && e.1.port == q2.name
          && e.2.name == ev.2.name) with
      | false => rfl
      | true =>
          exfalso
          obtain ⟨e2, he2, hm2⟩ := List.any_eq_true.1 haa
          simp at hm2
          have he2mem : e2 ∈ decEvents ctx n := by
            rw [hsplit]
            exact List.mem_append_left _ he2
          obtain ⟨_, _, he2p, _, _, _⟩ := decEvents_mem_elim ctx n e2 he2mem
          have h1 : e2.1 = ev.1 := portRef_ext _ _ hm2.1.1 (by rw [hm2.1.2, hq2n])
          have he2p2 : e2.2 ∈ ci.ports := by
            rw [show portsOf ctx e2.1.cell = ci.ports from by
              unfold portsOf; rw [hm2.1.1, hfc]] at he2p
            exact he2p
          have h2 : e2.2 = ev.2 :=
            List.inj_on_of_nodup_map hndports he2p2 hpci hm2.2
          exact hevnotdone (Prod.ext h1 h2 ▸ he2)
    rw [hq2isN, netOfD_of_net hq2net, hcontn, hany]
    rfl
  have hpendne : pendE ctx ev.1.cell ci ev.2.name rho edone ≠ [] := by
    intro h
    rw [h] at hq2pend
    exact absurd hq2pend (List.not_mem_nil q2)
  have hm2 : ev.2.net = some (netOfD ev.2) := net_of_netOfD ev.2 hnet rfl
  have hkeyown := hkey (ev.1.cell, ci) hen ev.2 hpci ht (netOfD ev.2) hm2
    hnoseedkey.1 hnoseedkey.2
  obtain ⟨hfan, hnotin⟩ := hkeyown.2 hpendne
  have hstep_pend : pendE ctx ev.1.cell ci ev.2.name rho (edone ++ [ev])
      = (pendE ctx ev.1.cell ci ev.2.name rho edone).erase q2 := by
    rw [pendE_snoc_self ctx ev.1.cell ci ev.2.name rho edone ev rfl rfl]
    refine filter_eq_erase _ (pendE_nodup _ _ _ _ _ _ hndports) q2 hq2pend _ ?_
    intro b hb
    beta_reduce
    constructor
    · intro hbf
      have hb2 : ((ctx.portClock ev.1.cell b.name).isNone
          && (ev.1.port == b.name)) = true := by
        revert hbf
        cases ((ctx.portClock ev.1.cell b.name).isNone && (ev.1.port == b.name)) <;> simp
      have hbn : ev.1.port = b.name := by
        have hb3 := Bool.and_eq_true _ _ ▸ hb2
        exact beq_iff_eq.1 hb3.2
      have hbports : b ∈ ci.ports :=
        ((countedInputs_mem _ _ _ _ _).1
          (pendE_sub_counted _ _ _ _ _ _ b hb)).1
      exact List.inj_on_of_nodup_map hndports hbports hq2 (hbn.symm.trans hq2n.symm)
    · intro hbq
      subst hbq
      rw [hq2isN, hq2n]
      simp
  have hdec : decStep s ev = (if (pendE ctx ev.1.cell ci ev.2.name rho edone).length == 1
      then { s with fanin := eraseFanin s.fanin (ev.1.cell, ev.2.name),
                    order := s.order ++ [netOfD ev.2],
                    queue := s.queue ++ [netOfD ev.2] }
      else { s with fanin := setFanin s.fanin (ev.1.cell, ev.2.name)
                      ((pendE ctx ev.1.cell ci ev.2.name rho edone).length - 1) }) := by
    unfold decStep kahnDec
    rw [if_neg (by simp [hdead]), hfan]
  by_cases hlen1 : ((pendE ctx ev.1.cell ci ev.2.name rho edone).length == 1) = true
  · -- release: the key reaches in-degree zero and the net is appended
    have hsing : pendE ctx ev.1.cell ci ev.2.name rho edone = [q2] := by
      obtain ⟨x, hx⟩ := List.length_eq_one.1 (by
        have := beq_iff_eq.1 hlen1
        exact this)
      rw [hx] at hq2pend
      rw [hx, List.mem_singleton.1 hq2pend]
    have hempty : pendE ctx ev.1.cell ci ev.2.name rho (edone ++ [ev]) = [] := by
      rw [hstep_pend, hsing]
      exact List.erase_cons_head q2 []
    rw [hdec, if_pos hlen1]
    refine ⟨hdead, ?_, ?_, ?_, ?_⟩
    · -- the appended net was not yet in the order
      show (s.order ++ [netOfD ev.2]).Nodup
      rw [List.nodup_append]
      refine ⟨hnd, List.nodup_singleton _, ?_⟩
      intro a ha hb
      rw [List.mem_singleton] at hb
      subst hb
      exact hnotin ha
    · -- the released net satisfies the order soundness property
      show OrderInv ctx (s.order ++ [netOfD ev.2])
      intro j hj
      rw [List.length_append, List.length_singleton] at hj
      by_cases hjlt : j < s.order.length
      · rw [getD_append_left hjlt]
        intro en2 hen2 p2 hp2 ht2 hnet2 hclk2 hio2 q hq
        obtain ⟨hq1, i, hi, hgd⟩ := hoinv j hjlt en2 hen2 p2 hp2 ht2 hnet2 hclk2 hio2 q hq
        exact ⟨hq1, i, hi, by rw [getD_append_left (lt_trans hi hjlt)]; exact hgd⟩
      · have hje : j = s.order.length := by omega
        subst hje
        rw [getD_concat_self]
        rintro ⟨e1, e2⟩ hen2 p2 hp2 ht2 hnet2 hclk2 hio2 q hq
        have hkeyeq := wf_driver ctx hwf (e1, e2) hen2 p2 hp2 (ev.1.cell, ci) hen ev.2 hpci
          ht2 ht (netOfD ev.2) hnet2 hm2
        have he12 : ((e1 : Nat), e2) = (ev.1.cell, ci) :=
          List.inj_on_of_nodup_map hwf.1 hen2 hen hkeyeq.1
        obtain ⟨he1, he2⟩ := Prod.mk.injEq .. ▸ he12
        subst he1
        have he2b : ci = e2 := he2.symm
        subst he2b
        have hp2eq : p2 = ev.2 := List.inj_on_of_nodup_map hndports hp2 hpci hkeyeq.2
        subst hp2eq
        have hqdrop : (!((ctx.portClock ev.1.cell q.name).isNone
            && (rho.contains (netOfD q) || (edone ++ [ev]).any (fun e =>
                e.1.cell == ev.1.cell && e.1.port == q.name
                  && e.2.name == ev.2.name)))) = false := by
          cases hpos : (!((ctx.portClock ev.1.cell q.name).isNone
              && (rho.contains (netOfD q) || (edone ++ [ev]).any (fun e =>
                  e.1.cell == ev.1.cell && e.1.port == q.name
                    && e.2.name == ev.2.name)))) with
          | false => rfl
          | true =>
              exfalso
              have hqin : q ∈ pendE ctx ev.1.cell ci ev.2.name rho (edone ++ [ev]) := by
                unfold pendE
                refine List.mem_filter.2 ⟨hq, ?_⟩
                beta_reduce
                exact hpos
              rw [hempty] at hqin
              exact absurd hqin (List.not_mem_nil q)
        have hqfacts : (ctx.portClock ev.1.cell q.name).isNone = true
            ∧ (rho.contains (netOfD q) = true ∨ (edone ++ [ev]).any (fun e =>
                e.1.cell == ev.1.cell && e.1.port == q.name
                  && e.2.name == ev.2.name) = true) := by
          revert hqdrop
          cases h1 : (ctx.portClock ev.1.cell q.name).isNone <;>
            cases h2 : rho.contains (netOfD q) <;>
              cases h3 : (edone ++ [ev]).any (fun e =>
                  e.1.cell == ev.1.cell && e.1.port == q.name
                    && e.2.name == ev.2.name) <;>
                simp
        refine ⟨hqfacts.1, ?_⟩
        rcases hqfacts.2 with hcont | hany2
        · have hmem : netOfD q ∈ rho := List.mem_of_elem_eq_true hcont
          obtain ⟨i, hilt, hiv⟩ := mem_getD_pos hmem
          refine ⟨i, by omega, ?_⟩
          rw [getD_append_left (by omega), hoq,
            getD_append_left (by simp; omega), getD_append_left (by simp [hilt])]
          exact hiv
        · obtain ⟨e3, he3, hm3⟩ := List.any_eq_true.1 hany2
          simp at hm3
          have he3mem : e3 ∈ decEvents ctx n := by
            rcases List.mem_append.1 he3 with h | h
            · rw [hsplit]
              exact List.mem_append_left _ h
            · rw [List.mem_singleton] at h
              subst h
              exact hevmem
          have hqn : q.net = some n := by
            refine evented_net ctx hwf n e3 he3mem ci ?_ q ?_ ?_
            · rw [hm3.1.1]
              exact hfc
            · exact ((countedInputs_mem _ _ _ _ _).1 hq).1
            · exact hm3.1.2
          refine ⟨rho.length, by omega, ?_⟩
          rw [netOfD_of_net hqn, getD_append_left (by omega), hoq,
            getD_append_left (by simp), getD_concat_self]
    · show s.order ++ [netOfD ev.2] = (rho ++ [n]) ++ (s.queue ++ [netOfD ev.2])
      rw [hoq, List.append_assoc]
    · -- per-key bookkeeping after the release
      rintro ⟨e1, e2⟩ hen2 p2 hp2 ht2 m2 hm2b hclk2 hio2
      by_cases hsame : e1 = ev.1.cell ∧ p2.name = ev.2.name
      · have he12 : ((e1 : Nat), e2) = (ev.1.cell, ci) :=
          List.inj_on_of_nodup_map hwf.1 hen2 hen hsame.1
        obtain ⟨he1, he2⟩ := Prod.mk.injEq .. ▸ he12
        subst he1
        have he2b : ci = e2 := he2.symm
        subst he2b
        have hp2eq : p2 = ev.2 := List.inj_on_of_nodup_map hndports hp2 hpci hsame.2
        subst hp2eq
        constructor
        · intro _
          show eraseFanin s.fanin (ev.1.cell, ev.2.name) (ev.1.cell, ev.2.name) = none
          simp [eraseFanin]
        · intro habs
          exact absurd hempty habs
      · have hne : ev.1.cell ≠ e1 ∨ ev.2.name ≠ p2.name := by
          by_cases h1 : e1 = ev.1.cell
          · refine Or.inr ?_
            intro h2
            exact hsame ⟨h1, h2.symm⟩
          · exact Or.inl (fun h => h1 h.symm)
        have hframe := pendE_snoc_other ctx e1 e2 p2.name rho edone ev hne
        rw [hframe]
        have hold := hkey (e1, e2) hen2 p2 hp2 ht2 m2 hm2b hclk2 hio2
        have hfanframe : eraseFanin s.fanin (ev.1.cell, ev.2.name) (e1, p2.name)
            = s.fanin (e1, p2.name) := by
          unfold eraseFanin
          rw [if_neg ?_]
          intro hh
          rcases hne with h | h
          · exact h (congrArg Prod.fst hh).symm
          · exact h (congrArg Prod.snd hh).symm
        constructor
        · intro hpe
          show eraseFanin s.fanin (ev.1.cell, ev.2.name) (e1, p2.name) = none
          rw [hfanframe]
          exact hold.1 hpe
        · intro hpe
          obtain ⟨hf2, hm2no⟩ := hold.2 hpe
          refine ⟨?_, ?_⟩
          · show eraseFanin s.fanin (ev.1.cell, ev.2.name) (e1, p2.name)
              = some (pendE ctx e1 e2 p2.name rho edone).length
            rw [hfanframe]
            exact hf2
          · -- the appended net differs from this pending key's net (unique driver)
            have hm2ne : m2 ≠ netOfD ev.2 := by
              intro hmm
              refine hsame ?_
              have hk := wf_driver ctx hwf (e1, e2) hen2 p2 hp2 (ev.1.cell, ci) hen ev.2
                hpci ht2 ht (netOfD ev.2) (by rw [← hmm]; exact hm2b) hm2
              exact ⟨hk.1, hk.2⟩
            intro hmem
            rcases List.mem_append.1 hmem with h | h
            · exact hm2no h
            · rw [List.mem_singleton] at h
              exact hm2ne h
  · -- plain decrement: the entry drops by one
    have hlenne : (pendE ctx ev.1.cell ci ev.2.name rho edone).length ≠ 1 := by
      intro h
      rw [h] at hlen1
      exact hlen1 rfl
    have hlenpos : 0 < (pendE ctx ev.1.cell ci ev.2.name rho edone).length :=
      List.length_pos.2 hpendne
    have herlen : ((pendE ctx ev.1.cell ci ev.2.name rho edone).erase q2).length
        = (pendE ctx ev.1.cell ci ev.2.name rho edone).length - 1 :=
      List.length_erase_of_mem hq2pend
    rw [hdec, if_neg hlen1]
    refine ⟨hdead, hnd, hoinv, hoq, ?_⟩
    rintro ⟨e1, e2⟩ hen2 p2 hp2 ht2 m2 hm2b hclk2 hio2
    by_cases hsame : e1 = ev.1.cell ∧ p2.name = ev.2.name
    · have he12 : ((e1 : Nat), e2) = (ev.1.cell, ci) :=
        List.inj_on_of_nodup_map hwf.1 hen2 hen hsame.1
      obtain ⟨he1, he2⟩ := Prod.mk.injEq .. ▸ he12
      subst he1
      have he2b : ci = e2 := he2.symm
      subst he2b
      have hp2eq : p2 = ev.2 := List.inj_on_of_nodup_map hndports hp2 hpci hsame.2
      subst hp2eq
      constructor
      · intro hpe
        rw [hstep_pend] at hpe
        have := congrArg List.length hpe
        rw [herlen] at this
        simp at this
        omega
      · intro _
        refine ⟨?_, ?_⟩
        · show setFanin s.fanin (ev.1.cell, ev.2.name)
            ((pendE ctx ev.1.cell ci ev.2.name rho edone).length - 1) (ev.1.cell, ev.2.name)
            = some (pendE ctx ev.1.cell ci ev.2.name rho (edone ++ [ev])).length
          rw [hstep_pend, herlen]
          simp [setFanin]
        · show m2 ∉ s.order
          rw [show m2 = netOfD ev.2 from Option.some_inj.1 (hm2b.symm.trans hm2)]
          exact hnotin
    · have hne : ev.1.cell ≠ e1 ∨ ev.2.name ≠ p2.name := by
        by_cases h1 : e1 = ev.1.cell
        · refine Or.inr ?_
          intro h2
          exact hsame ⟨h1, h2.symm⟩
        · exact Or.inl (fun h => h1 h.symm)
      have hframe := pendE_snoc_other ctx e1 e2 p2.name rho edone ev hne
      rw [hframe]
      have hold := hkey (e1, e2) hen2 p2 hp2 ht2 m2 hm2b hclk2 hio2
      have hfanframe : setFanin s.fanin (ev.1.cell, ev.2.name)
          ((pendE ctx ev.1.cell ci ev.2.name rho edone).length - 1) (e1, p2.name)
          = s.fanin (e1, p2.name) := by
        unfold setFanin
        rw [if_neg ?_]
        intro hh
        rcases hne with h | h
        · exact h (congrArg Prod.fst hh).symm
        · exact h (congrArg Prod.snd hh).symm
      constructor
      · intro hpe
        show setFanin s.fanin (ev.1.cell, ev.2.name)
          ((pendE ctx ev.1.cell ci ev.2.name rho edone).length - 1) (e1, p2.name) = none
        rw [hfanframe]
        exact hold.1 hpe
      · intro hpe
        obtain ⟨hf2, hm2no⟩ := hold.2 hpe
        refine ⟨?_, hm2no⟩
        show setFanin s.fanin (ev.1.cell, ev.2.name)
          ((pendE ctx ev.1.cell ci ev.2.name rho edone).length - 1) (e1, p2.name)
          = some (pendE ctx e1 e2 p2.name rho edone).length
        rw [hfanframe]
        exact hf2

/-! ## Linearizer soundness (C8): the invariant holds through the loop. -/

theorem decFold_preserves (ctx : Ctx) (hwf : WFCtx ctx) (n : Nat) (rho : List Nat)
    (hnrho : n ∉ rho) :
    ∀ (rest edone : List (PortRef × PortInfo)),
      decEvents ctx n = edone ++ rest →
      ∀ s : KState, KInvMid ctx rho n edone s →
        KInvMid ctx rho n (edone ++ rest) (rest.foldl decStep s) := by
  intro rest
  induction rest with
  | nil =>
      intro edone hs s hinv
      rw [List.append_nil]
      exact hinv
  | cons ev rest2 ih =>
      intro edone hs s hinv
      rw [List.foldl_cons]
      have h1 := decStep_preserves ctx hwf n rho hnrho edone ev rest2 hs s hinv
      have h2 := ih (edone ++ [ev]) (by rw [hs, List.append_assoc]; rfl) _ h1
      rw [show (edone ++ [ev]) ++ rest2 = edone ++ ev :: rest2 from by
        rw [List.append_assoc]; rfl] at h2
      exact h2

theorem kahnStep_preserves (ctx : Ctx) (hwf : WFCtx ctx) (st : KState)
    (hinv : KInv ctx st) : KInv ctx (kahnStep ctx st) := by
  obtain ⟨hdead, hnd, hoinv, rho, hoq, hkey⟩ := hinv
  unfold kahnStep
  cases hq : st.queue with
  | nil => exact ⟨hdead, hnd, hoinv, rho, hoq, hkey⟩
  | cons n rest =>
      show KInv ctx ((usersOf ctx n).foldl (kahnUser ctx) { st with queue := rest })
      rw [usersFold_events]
      have hnrho : n ∉ rho := by
        rw [hoq, hq, List.nodup_middle, List.nodup_cons] at hnd
        exact fun h => hnd.1 (List.mem_append_left _ h)
      have hnd2 : st.order.Nodup := by
        rw [hoq, hq]
        rw [hoq, hq, List.nodup_middle, List.nodup_cons] at hnd
        rw [List.nodup_middle, List.nodup_cons]
        exact hnd
      have hmid0 : KInvMid ctx rho n [] { st with queue := rest } := by
        refine ⟨hdead, hnd2, hoinv, ?_, ?_⟩
        · show st.order = (rho ++ [n]) ++ rest
          rw [hoq, hq, List.append_assoc]
          rfl
        · intro en hen p hp ht m hm hclk hio
          rw [pendE_nil]
          exact hkey en hen p hp ht m hm hclk hio
      have hfold := decFold_preserves ctx hwf n rho hnrho (decEvents ctx n) []
        (by rw [List.nil_append]) _ hmid0
      rw [List.nil_append] at hfold
      obtain ⟨hdead2, hnd3, hoinv2, hoq2, hkey2⟩ := hfold
      refine ⟨hdead2, hnd3, hoinv2, rho ++ [n], hoq2, ?_⟩
      intro en hen p hp ht m hm hclk hio
      have hfull := pendE_full ctx hwf n rho en.1 en.2
        (findCell_of_mem ctx en.1 en.2 hen hwf.1) p hp ht (by rw [hm]; rfl)
      rw [← hfull]
      exact hkey2 en hen p hp ht m hm hclk hio

theorem kahnLoop_KInv (ctx : Ctx) (hwf : WFCtx ctx) :
    ∀ (fuel : Nat) (st : KState), KInv ctx st → KInv ctx (kahnLoop ctx fuel st) := by
  intro fuel
  induction fuel with
  | zero =>
      intro st h
      exact h
  | succ f ih =>
      intro st h
      unfold kahnLoop
      by_cases hdead : st.dead = true
      · rw [if_pos hdead]
        exact h
      · rw [if_neg hdead]
        by_cases hq : st.queue.isEmpty = true
        · rw [if_pos hq]
          exact h
        · rw [if_neg hq]
          exact ih _ (kahnStep_preserves ctx hwf st h)

theorem linearized_KInv (ctx : Ctx) (hwf : WFCtx ctx) : KInv ctx (linearized ctx) := by
  unfold linearized
  apply kahnLoop_KInv ctx hwf
  refine ⟨rfl, seedPass_order_nodup ctx hwf, ?_, [], by rw [List.nil_append], ?_⟩
  · intro j hj en hen p hp ht hnet hclk hio
    exfalso
    have hseed : isSeedNet ctx ((seedPass ctx).order.getD j 0) :=
      (isSeedNet_iff ctx _).2 (getD_mem hj)
    obtain ⟨en2, hen2, p2, hp2, ht2, hnet2, hsd2⟩ := hseed
    have hkeq := wf_driver ctx hwf en2 hen2 p2 hp2 en hen p hp ht2 ht _ hnet2 hnet
    rcases hsd2 with hc | hio2
    · rw [hkeq.1, hkeq.2] at hc
      exact absurd hc (by simp [hclk])
    · have he : en2 = en := List.inj_on_of_nodup_map hwf.1 hen2 hen hkeq.1
      rw [he] at hio2
      exact hio hio2
  · intro en hen p hp ht m hm hclk hio
    rw [pendInputs_nil]
    have hfan := seedPass_fanin ctx hwf.1 en hen (hwf.2.1 en hen) p hp ht
      (by rw [hm]; rfl) (Option.not_isSome_iff_eq_none.1 (by simp [hclk]))
    constructor
    · intro hce
      rw [hce, if_pos rfl] at hfan
      exact hfan
    · intro hcne
      rw [if_neg hcne] at hfan
      refine ⟨hfan, ?_⟩
      intro hmem
      obtain ⟨en2, hen2, p2, hp2, ht2, hnet2, hsd2⟩ := (isSeedNet_iff ctx m).2 hmem
      have hkeq := wf_driver ctx hwf en2 hen2 p2 hp2 en hen p hp ht2 ht m hnet2 hm
      rcases hsd2 with hc | hio2
      · rw [hkeq.1, hkeq.2] at hc
        exact absurd hc (by simp [hclk])
      · have he : en2 = en := List.inj_on_of_nodup_map hwf.1 hen2 hen hkeq.1
        rw [he] at hio2
        exact hio hio2

/-- C8, amended: for every well-formed netlist (unique cell ids, unique
port names per cell, unique drivers, users lists consistent with port
bindings both ways and duplicate-free, and no combinational input path
into a seed-origin output), the sequence produced by the dependency
linearizer is topologically sound on every net whose driver is not a seed
origin: whenever net b is produced combinationally from net a through one
cell via a non-clocked sink, a occurs before b at every occurrence of b
in the sequence.  Seed-origin nets (clocked or IO-cell outputs) are
exempt, as c8_seeded_net_breaks_topo_order shows the order is violated
for an IO output with a combinational input path. -/
theorem c8_amended_topological_soundness (ctx : Ctx) (hwf : WFCtx ctx)
    (a b : Nat) (hdrive : combDrives ctx a b) (hnoseed : ¬ isSeedNet ctx b) :
    occursBefore (topographical_order ctx) a b := by
  obtain ⟨_, _, hoinv, _⟩ := linearized_KInv ctx hwf
  intro j hj hgd
  have hj2 : j < (linearized ctx).order.length := hj
  have hgd2 : (linearized ctx).order.getD j 0 = b := hgd
  obtain ⟨usr, husr, _hclk, p, hp, ht, hnet, hdel⟩ := hdrive
  have hci : ∃ ci, findCell ctx usr.cell = some ci ∧ p ∈ ci.ports := by
    revert hp
    unfold portsOf
    cases hfc : findCell ctx usr.cell with
    | none =>
        intro h
        exact absurd h (List.not_mem_nil _)
    | some ci =>
        intro h
        exact ⟨ci, rfl, h⟩
  obtain ⟨ci, hfc, hpci⟩ := hci
  have hen : (usr.cell, ci) ∈ ctx.cells := findCell_mem ctx usr.cell ci hfc
  have hclkb : (ctx.portClock usr.cell p.name).isSome = false := by
    cases hsk : (ctx.portClock usr.cell p.name).isSome with
    | false => rfl
    | true =>
        exact absurd ⟨(usr.cell, ci), hen, p, hpci, ht, hnet, Or.inl hsk⟩ hnoseed
  have hiob : ci.type ≠ ctx.id_sb_io := by
    intro hio
    exact hnoseed ⟨(usr.cell, ci), hen, p, hpci, ht, hnet, Or.inr hio⟩
  obtain ⟨ni, hfn, hnm, hum⟩ := usersOf_mem_elim ctx a usr husr
  obtain ⟨q2, hq2, hq2n, hq2t, hq2net⟩ := hwf.2.2.1 (a, ni) hnm usr hum
  rw [show portsOf ctx usr.cell = ci.ports from by unfold portsOf; rw [hfc]] at hq2
  have hq2cnt : q2 ∈ countedInputs ctx usr.cell ci p.name :=
    (countedInputs_mem _ _ _ _ _).2
      ⟨hq2, by rw [hq2net]; rfl, hq2t, by rw [hq2n]; exact hdel⟩
  obtain ⟨_, i, hilt, hiv⟩ := hoinv j hj2 (usr.cell, ci) hen p hpci ht
    (by rw [hnet, hgd2]) hclkb hiob q2 hq2cnt
  refine ⟨i, hilt, ?_⟩
  show (linearized ctx).order.getD i 0 = a
  rw [hiv]
  exact netOfD_of_net hq2net

/-- Witness for C8 amended: the register-buffer-register chain ctxB 0 is
well formed, net 1 is combinationally driven from net 0 and is not a seed
origin, and the theorem places net 0 before net 1 in the order. -/
theorem c8_witness :
    WFCtx (ctxB 0) ∧ ¬ isSeedNet (ctxB 0) 1 ∧ combDrives (ctxB 0) 0 1
      ∧ occursBefore (topographical_order (ctxB 0)) 0 1 := by
  have h1 : WFCtx (ctxB 0) := by
    unfold WFCtx
    refine ⟨by decide, by decide, by decide, by decide, by decide, by decide, by decide⟩
  have h2 : ¬ isSeedNet (ctxB 0) 1 := by
    unfold isSeedNet
    decide
  have h3 : combDrives (ctxB 0) 0 1 := by
    unfold combDrives
    decide
  exact ⟨h1, h2, h3, c8_amended_topological_soundness (ctxB 0) h1 0 1 h3 h2⟩

end NextPNR
